import Mathlib

/-!
# RAMForge core: shallow embedding and verification

This file embeds the durable in-memory key-value core of RAMForge
(`src/storage.c`, `src/aof_batch.c`, `src/persistence.c`) in Lean 4 and
proves or refutes the specification's claims about it.

Conventions of the embedding:
* machine bytes are `Nat` values `< 256` collected in `List Nat`;
* C `int` keys are represented by their 32-bit pattern as a `Nat`
  (theorems restrict ids to `< 2^32`, where the representation is faithful);
* `size_t` values are `Nat`;
* the load-factor test `(double)(size + 1) / capacity > 0.7` is embedded as
  the rational comparison `10 * (size + 1) > 7 * capacity`, which agrees with
  the IEEE-double comparison for every capacity below `2^49` (the dyadic
  rational `(size+1)/capacity` then exceeds `7/10` by at least `2^-52.4`,
  more than the `≈ 6.66e-17` by which the double literal `0.7` exceeds `7/10`);
* file I/O is embedded by passing file contents (`List Nat`, or
  `Option (List Nat)` where a missing file matters) and syscall outcomes
  explicitly; `exit(2)` paths are embedded as a `corrupt` result.
-/

namespace RAMForge

/-! ## Byte-level primitives: little-endian fields -/

/-- 32-bit little-endian encoding of `x` (low byte first), as written by
`write(fd, &id, 4)` / `write(fd, &size, 4)` on a little-endian host. -/
def le32 (x : Nat) : List Nat :=
  [x % 256, x / 2 ^ 8 % 256, x / 2 ^ 16 % 256, x / 2 ^ 24 % 256]

/-- Reads a 32-bit little-endian value from the first four bytes. -/
def dec32 (b : List Nat) : Nat :=
  b.getD 0 0 % 256 + b.getD 1 0 % 256 * 2 ^ 8 +
    b.getD 2 0 % 256 * 2 ^ 16 + b.getD 3 0 % 256 * 2 ^ 24

/-- 64-bit little-endian encoding, the width of `size_t` in the RDB format. -/
def le64 (x : Nat) : List Nat :=
  [x % 256, x / 2 ^ 8 % 256, x / 2 ^ 16 % 256, x / 2 ^ 24 % 256,
   x / 2 ^ 32 % 256, x / 2 ^ 40 % 256, x / 2 ^ 48 % 256, x / 2 ^ 56 % 256]

/-- Reads a 64-bit little-endian value from the first eight bytes. -/
def dec64 (b : List Nat) : Nat :=
  b.getD 0 0 % 256 + b.getD 1 0 % 256 * 2 ^ 8 +
    b.getD 2 0 % 256 * 2 ^ 16 + b.getD 3 0 % 256 * 2 ^ 24 +
    b.getD 4 0 % 256 * 2 ^ 32 + b.getD 5 0 % 256 * 2 ^ 40 +
    b.getD 6 0 % 256 * 2 ^ 48 + b.getD 7 0 % 256 * 2 ^ 56

/-! ## CRC32C

Modelled from the spec: the repository references `crc32c.h`
(`src/aof_batch.c`, `src/persistence.c`, `tests/crc32c_test.c`) but the
implementation file `crc32c.c` is not under `src/`.  Spec §4.1 pins the
function: rolling CRC32C, Castagnoli polynomial `0x1EDC6F41` reflected
(i.e. `0x82F63B78`), seed `0`, `crc = crc32c(prev_crc, bytes, len)`, with
the RFC 3720 vectors `crc32c(0, "123456789") = 0xE3069283` and
`crc32c(0, "hello world") = 0xC99465AA` (both proved below). -/

/-- One bit-step of the reflected CRC32C: shift right, conditionally xor the
reflected Castagnoli polynomial. -/
def crc32c_step (crc : Nat) : Nat :=
  if crc % 2 = 1 then crc / 2 ^^^ 0x82F63B78 else crc / 2

/-- Eight bit-steps. -/
def crc32c_bits : Nat → Nat → Nat
  | 0, crc => crc
  | n + 1, crc => crc32c_bits n (crc32c_step crc)

/-- Folds one input byte into the CRC state. -/
def crc32c_byte (crc b : Nat) : Nat :=
  crc32c_bits 8 (crc ^^^ b % 256)

/-- `crc32c(prev, bytes, len)`: rolling reflected CRC32C with seed `prev`. -/
def crc32c (prev : Nat) (bytes : List Nat) : Nat :=
  (bytes.foldl crc32c_byte (prev % 2 ^ 32 ^^^ 0xFFFFFFFF)) ^^^ 0xFFFFFFFF

/-! ## The store (`src/storage.c`) -/

/-- Slot state: `BUCKET_EMPTY` (0, the `calloc` default), `BUCKET_OCCUPIED`,
`BUCKET_DELETED`. -/
inductive Flag where
  | empty
  | occupied
  | deleted
deriving DecidableEq, Repr

/-- One bucket of the open-addressed table: `flags[i]`, `keys[i]`,
`values[i]`/`val_sizes[i]` (the value buffer, meaningful only when
occupied; a freed buffer is modelled as `[]`). -/
structure Slot where
  flag : Flag
  key : Nat
  val : List Nat
deriving DecidableEq, Repr

instance : Inhabited Slot := ⟨⟨.empty, 0, []⟩⟩

/-- The `Storage` struct: `capacity`, `size`, and the four parallel arrays
fused into one slot list. -/
structure Storage where
  capacity : Nat
  size : Nat
  slots : List Slot
deriving DecidableEq, Repr

/-- `mix32`: the 32-bit integer finalizer used as hash (storage.c:8-15). -/
def mix32 (x0 : Nat) : Nat :=
  let x := x0 % 2 ^ 32
  let x := x ^^^ x >>> 16
  let x := x * 0x7feb352d % 2 ^ 32
  let x := x ^^^ x >>> 15
  let x := x * 0x846ca68b % 2 ^ 32
  x ^^^ x >>> 16

/-- `storage_init` (storage.c:20-27): capacity 16, all slots zeroed
(`BUCKET_EMPTY`). -/
def storage_init : Storage :=
  { capacity := 16, size := 0, slots := List.replicate 16 default }

/-- The probing loop of `storage_save` (storage.c:94-135), carrying the
in-flight entry `(nk, nv)`, its probe distance `dist` and position `idx`.
The C loop is `for (;;)`; it can fail to terminate only on a table with no
empty and no deleted slot, so the embedding runs it on explicit fuel
(instantiated with `capacity`, enough to visit every slot once) and returns
the state unchanged when the fuel runs out. -/
def saveLoop : Nat → Storage → Nat → List Nat → Nat → Nat → Storage
  | 0, st, _, _, _, _ => st
  | fuel + 1, st, nk, nv, dist, idx =>
    let s := st.slots.getD idx default
    if s.flag ≠ .occupied then
      -- empty or deleted: place here, size++
      { st with slots := st.slots.set idx ⟨.occupied, nk, nv⟩, size := st.size + 1 }
    else
      let mask := st.capacity - 1
      let cur_dist := (idx + st.capacity - (mix32 s.key &&& mask)) &&& mask
      if cur_dist < dist then
        -- Robin-Hood swap: install the carried entry, continue with the occupant
        saveLoop fuel { st with slots := st.slots.set idx ⟨.occupied, nk, nv⟩ }
          s.key s.val (cur_dist + 1) ((idx + 1) &&& mask)
      else if s.key = nk then
        -- overwrite existing key in place (old buffer freed), size unchanged
        { st with slots := st.slots.set idx ⟨.occupied, s.key, nv⟩ }
      else
        saveLoop fuel st nk nv (dist + 1) ((idx + 1) &&& mask)

/-- `storage_save` (storage.c:71-136) at recursion depth `d`: grow check,
then `storage_rehash` (storage.c:43-68, inlined here: double the capacity,
re-insert every occupied slot via `storage_save` itself), then the probing
loop.  `d` bounds the `storage_save`/`storage_rehash` recursion depth; depth
2 suffices for any store satisfying the load-factor invariant (the saves
issued by a rehash never re-trigger the grow check, proved below). -/
def storage_saveD : Nat → Storage → Nat → List Nat → Storage
  | 0, st, _, _ => st
  | d + 1, st, id, v =>
    let st1 :=
      if 10 * (st.size + 1) > 7 * st.capacity then
        st.slots.foldl
          (fun acc s => if s.flag = .occupied then storage_saveD d acc s.key s.val else acc)
          { capacity := 2 * st.capacity, size := 0,
            slots := List.replicate (2 * st.capacity) default }
      else st
    saveLoop st1.capacity st1 id v 0 (mix32 id &&& (st1.capacity - 1))

/-- `storage_rehash` (storage.c:43-68) on its own: fresh table of twice the
capacity, each occupied entry re-inserted by `storage_save` at depth `d`. -/
def storage_rehashD (d : Nat) (st : Storage) : Storage :=
  st.slots.foldl
    (fun acc s => if s.flag = .occupied then storage_saveD d acc s.key s.val else acc)
    { capacity := 2 * st.capacity, size := 0,
      slots := List.replicate (2 * st.capacity) default }

/-- `storage_save` as called by clients. -/
def storage_save (st : Storage) (id : Nat) (v : List Nat) : Storage :=
  storage_saveD 2 st id v

/-- The probe loop of `storage_get` (storage.c:144-155); the `for` loop runs
`dist = 0 .. capacity-1`, embedded as fuel.  The result is `some bytes`
for `return 1` (with `bytes` copied to `out`) and `none` for `return 0`
(nothing copied). -/
def getLoop (st : Storage) (k sz : Nat) : Nat → Nat → Option (List Nat)
  | _, 0 => none
  | idx, fuel + 1 =>
    let s := st.slots.getD idx default
    if s.flag = .empty then none
    else if s.flag = .occupied ∧ s.key = k then
      if sz < s.val.length then none else some s.val
    else getLoop st k sz ((idx + 1) &&& (st.capacity - 1)) fuel

/-- `storage_get` (storage.c:139-156). -/
def storage_get (st : Storage) (k sz : Nat) : Option (List Nat) :=
  getLoop st k sz (mix32 k &&& (st.capacity - 1)) st.capacity

/-- The probe loop of `storage_remove` (storage.c:164-175): on a hit the
value buffer is freed, the flag set to `BUCKET_DELETED` and `size`
decremented (C `size_t`; the hit case is reached only with `size > 0` on
well-formed stores, where `Nat` subtraction is exact). -/
def removeLoop (st : Storage) (k : Nat) : Nat → Nat → Storage
  | _, 0 => st
  | idx, fuel + 1 =>
    let s := st.slots.getD idx default
    if s.flag = .empty then st
    else if s.flag = .occupied ∧ s.key = k then
      { st with slots := st.slots.set idx ⟨.deleted, s.key, []⟩, size := st.size - 1 }
    else removeLoop st k ((idx + 1) &&& (st.capacity - 1)) fuel

/-- `storage_remove` (storage.c:159-176). -/
def storage_remove (st : Storage) (k : Nat) : Storage :=
  removeLoop st k (mix32 k &&& (st.capacity - 1)) st.capacity

/-! ## AOF engine (`src/aof_batch.c`) -/

/-- The bytes `aof_write_record` (aof_batch.c:41-53) emits when all four
`safe_write` calls succeed: `[id:4 LE][size:4 LE][payload][crc32c:4 LE]`,
the CRC computed with seed 0 over the preceding `8 + size` bytes. -/
def aof_record_bytes (id : Nat) (data : List Nat) : List Nat :=
  let idb := le32 id
  let szb := le32 data.length
  idb ++ szb ++ data ++ le32 (crc32c (crc32c (crc32c 0 idb) szb) data)

/-- The log file produced by a sequence of successful `aof_write_record`
calls (`O_APPEND`: records are concatenated in call order). -/
def aof_file_of (recs : List (Nat × List Nat)) : List Nat :=
  (recs.map fun p => aof_record_bytes p.1 p.2).flatten

/-- Result of `AOF_load`: either the final store, or the
`"AOF corrupt at offset … - aborting"` / `exit(2)` path. -/
inductive LoadRes where
  | ok (st : Storage)
  | corrupt
deriving DecidableEq, Repr

/-- The replay loop of `AOF_load` (aof_batch.c:152-168) on the remaining
file bytes.  `read(fd, &id, 4) == 4` fails — ending the loop successfully —
whenever fewer than 4 bytes remain (a `read` on a regular file returns the
number of bytes left, so 0-3 trailing bytes also end the loop cleanly);
every later short read, and a CRC mismatch, jumps to `corrupt`. -/
def AOF_load_loop : Nat → List Nat → Storage → LoadRes
  | 0, _, st => .ok st
  | fuel + 1, bytes, st =>
    if bytes.length < 4 then .ok st
    else
      let idb := bytes.take 4
      let r1 := bytes.drop 4
      if r1.length < 4 then .corrupt
      else
        let szb := r1.take 4
        let size := dec32 szb
        let r2 := r1.drop 4
        if r2.length < size then .corrupt
        else
          let payload := r2.take size
          let r3 := r2.drop size
          if r3.length < 4 then .corrupt
          else
            let crc_file := dec32 (r3.take 4)
            let crc := crc32c (crc32c (crc32c 0 idb) szb) payload
            if crc ≠ crc_file then .corrupt
            else AOF_load_loop fuel (r3.drop 4) (storage_save st (dec32 idb) payload)

/-- `AOF_load_go bytes st` runs the replay loop.  Each iteration consumes at
least 12 bytes, so fuel `bytes.length + 1` can never run out (each recursive
step strictly shrinks the remaining bytes); the fuel only makes the
recursion structural. -/
def AOF_load_go (bytes : List Nat) (st : Storage) : LoadRes :=
  AOF_load_loop (bytes.length + 1) bytes st

/-- `AOF_load` (aof_batch.c:140-177): a missing file (`ENOENT`) returns
cleanly, otherwise the records are replayed from the front. -/
def AOF_load (file : Option (List Nat)) (st : Storage) : LoadRes :=
  match file with
  | none => .ok st
  | some bytes => AOF_load_go bytes st

/-- The pure parsing content of `AOF_load_go`: the `(id, payload)` pairs a
byte-identical read-back yields, `none` on the corrupt path. -/
def aofParseLoop : Nat → List Nat → Option (List (Nat × List Nat))
  | 0, _ => some []
  | fuel + 1, bytes =>
    if bytes.length < 4 then some []
    else
      let idb := bytes.take 4
      let r1 := bytes.drop 4
      if r1.length < 4 then none
      else
        let szb := r1.take 4
        let size := dec32 szb
        let r2 := r1.drop 4
        if r2.length < size then none
        else
          let payload := r2.take size
          let r3 := r2.drop size
          if r3.length < 4 then none
          else
            let crc_file := dec32 (r3.take 4)
            let crc := crc32c (crc32c (crc32c 0 idb) szb) payload
            if crc ≠ crc_file then none
            else (aofParseLoop fuel (r3.drop 4)).map ((dec32 idb, payload) :: ·)

/-- The parse with enough fuel (as for `AOF_load_go`, it never runs out). -/
def aofParse (bytes : List Nat) : Option (List (Nat × List Nat)) :=
  aofParseLoop (bytes.length + 1) bytes

/-- Outcome of one sync-always append: whether the `aof_write_record` call
succeeded and whether the `fsync` call succeeded. -/
structure AppendIO where
  write_ok : Bool
  fsync_ok : Bool
deriving DecidableEq, Repr

/-- `AOF_append` in sync-always mode (aof_batch.c:115-121):
`if (aof_write_record(...) == -1) return -1; fsync(fd); return 0;`.
The translation makes the I/O outcomes explicit: the return value of
`fsync` is not inspected by the C code, so `fsync_ok` does not influence
the result. -/
def AOF_append_always (io : AppendIO) : Int :=
  if io.write_ok = false then -1 else 0

/-- `mode_always` selection in `AOF_init` (aof_batch.c:92): flush interval
0 means sync-always. -/
def AOF_mode_always (interval_ms : Nat) : Bool :=
  interval_ms == 0

/-- The persistence slice of `create_user_fast` (app_routes.c:75-86): the
store is updated only after `AOF_append` returns ≥ 0 ("AOF-first"). -/
def create_user_fast_persist (st : Storage) (id : Nat) (u : List Nat)
    (io : AppendIO) : Storage :=
  if AOF_append_always io < 0 then st else storage_save st id u

/-! ## RDB engine (`src/persistence.c`) -/

/-- Result of `load_rdb`: the final store, or the
`"RDB checksum mismatch, aborting startup"` / `exit(2)` path. -/
inductive RdbRes where
  | ok (st : Storage)
  | corrupt
deriving DecidableEq, Repr

/-- One record as written by `rdb_iter_crc_cb` (persistence.c:21-35):
`[id:4][size:size_t = 8 bytes LE][payload]`. -/
def rdb_record_bytes (id : Nat) (data : List Nat) : List Nat :=
  le32 id ++ le64 data.length ++ data

/-- The record area of an RDB file for `recs` (the CRC32C footer over all
these bytes follows separately). -/
def rdb_body_of (recs : List (Nat × List Nat)) : List Nat :=
  (recs.map fun p => rdb_record_bytes p.1 p.2).flatten

/-- The replay loop of `load_rdb` (persistence.c:61-77) on the bytes from
the read position to end-of-file (`rem` always keeps the 4 footer bytes at
its end; `crc` is the running CRC, `footer` the stored footer).  The loop
runs `while (ftell < fsz - 4)`, i.e. while more than 4 bytes remain.  A
failed `fread` jumps to `corrupt`; note `fread(buf, 0, 1)` returns 0, so a
record declaring size 0 is corrupt.  After the loop the computed CRC must
equal the footer. -/
def load_rdb_loop : Nat → List Nat → Nat → Storage → Nat → RdbRes
  | 0, _, crc, st, footer => if crc = footer then .ok st else .corrupt
  | fuel + 1, rem, crc, st, footer =>
    if rem.length ≤ 4 then
      if crc = footer then .ok st else .corrupt
    else
      let idb := rem.take 4
      let r1 := rem.drop 4
      if r1.length < 8 then .corrupt
      else
        let szb := r1.take 8
        let sz := dec64 szb
        let r2 := r1.drop 8
        if sz = 0 then .corrupt
        else if r2.length < sz then .corrupt
        else
          let payload := r2.take sz
          load_rdb_loop fuel (r2.drop sz)
            (crc32c (crc32c (crc32c crc idb) szb) payload)
            (storage_save st (dec32 idb) payload) footer

/-- The replay loop with enough fuel: each iteration consumes at least 13
bytes (records with size 0 are corrupt), so fuel `rem.length` never runs
out before the `≤ 4` exit fires. -/
def load_rdb_go (rem : List Nat) (crc : Nat) (st : Storage) (footer : Nat) :
    RdbRes :=
  load_rdb_loop (rem.length + 1) rem crc st footer

/-- `load_rdb` (persistence.c:46-88): a missing file returns cleanly, as
does a file shorter than 4 bytes; otherwise the trailing 4 bytes are the
footer and the records are replayed from the front. -/
def load_rdb (file : Option (List Nat)) (st : Storage) : RdbRes :=
  match file with
  | none => .ok st
  | some bytes =>
    if bytes.length < 4 then .ok st
    else load_rdb_go bytes 0 st (dec32 (bytes.drop (bytes.length - 4)))

/-- The rolling CRC the RDB writer accumulates over (and the loader
recomputes from) the records' bytes, seed `c`. -/
def rdb_crc_fold (c : Nat) : List (Nat × List Nat) → Nat
  | [] => c
  | p :: rest =>
    rdb_crc_fold
      (crc32c (crc32c (crc32c c (le32 p.1)) (le64 p.2.length)) p.2) rest

/-! ## Abstractions and invariants of the store

The functional-correctness proofs go through a representation invariant
on `Storage` and an abstraction `model` to a partial map.  All quantifiers
are bounded, so the predicates are decidable and can be checked on
concrete stores. -/

/-- The slot at index `i` (out-of-range reads default to an empty slot,
mirroring that probe indices never leave `[0, capacity)`). -/
def slotAt (st : Storage) (i : Nat) : Slot :=
  st.slots.getD i default

/-- Slot `i` holds a live entry. -/
def occAt (st : Storage) (i : Nat) : Prop :=
  (slotAt st i).flag = .occupied

/-- `hash(key) & mask`: the home slot of key `k` in a table of capacity
`cap` (written with `%`; equal to the C `&`-form for power-of-two `cap`). -/
def homeOf (cap k : Nat) : Nat :=
  mix32 k % cap

/-- Probe distance from home `h` to slot `i` (the C expression
`(idx + capacity - (hash & mask)) & mask`). -/
def pd (cap h i : Nat) : Nat :=
  (i + cap - h) % cap

/-- The slot reached after `t` probe steps from home `h`. -/
def probePos (cap h t : Nat) : Nat :=
  (h + t) % cap

/-- Probe distance of the entry occupying slot `i`. -/
def distAt (st : Storage) (i : Nat) : Nat :=
  pd st.capacity (homeOf st.capacity (slotAt st i).key) i

/-- Number of occupied slots. -/
def countOcc (st : Storage) : Nat :=
  st.slots.countP fun s => s.flag == Flag.occupied

/-- The slot arrays have exactly `capacity` entries. -/
def LenOK (st : Storage) : Prop :=
  st.slots.length = st.capacity

/-- `capacity` is a power of two (the exponent is trivially below
`capacity + 1`, the bound only keeps the quantifier decidable). -/
def CapPow2 (st : Storage) : Prop :=
  ∃ m, m < st.capacity + 1 ∧ st.capacity = 2 ^ m

/-- `capacity` never drops below its initial value 16. -/
def CapGE (st : Storage) : Prop :=
  16 ≤ st.capacity

/-- `size` counts the occupied slots. -/
def SizeOK (st : Storage) : Prop :=
  st.size = countOcc st

/-- The post-insert load-factor bound `size / capacity ≤ 0.7`. -/
def LoadOK (st : Storage) : Prop :=
  10 * st.size ≤ 7 * st.capacity

/-- No two occupied slots hold the same key. -/
def NoDupKeys (st : Storage) : Prop :=
  ∀ i, i < st.slots.length → ∀ j, j < st.slots.length →
    occAt st i → occAt st j → (slotAt st i).key = (slotAt st j).key → i = j

/-- Every occupied entry is reachable from its home without crossing an
empty slot: all slots strictly before it on its probe path are occupied or
deleted. -/
def ChainNE (st : Storage) : Prop :=
  ∀ i, i < st.slots.length → occAt st i → ∀ t, t < distAt st i →
    (slotAt st (probePos st.capacity (homeOf st.capacity (slotAt st i).key) t)).flag
      ≠ .empty

/-- No deleted slots (holds for every store built by saves alone). -/
def Clean (st : Storage) : Prop :=
  ∀ i, i < st.slots.length → (slotAt st i).flag ≠ .deleted

/-- The Robin-Hood ordering: every slot strictly before an occupied entry
on that entry's probe path is occupied by an entry displaced at least as
far.  This is what keeps an insert of an existing key from being diverted
into a swap before it reaches the key. -/
def NoPass (st : Storage) : Prop :=
  ∀ i, i < st.slots.length → occAt st i → ∀ t, t < distAt st i →
    occAt st (probePos st.capacity (homeOf st.capacity (slotAt st i).key) t) ∧
      t ≤ distAt st (probePos st.capacity (homeOf st.capacity (slotAt st i).key) t)

/-- Well-formedness shared by every reachable store (with or without
tombstones). -/
def WF (st : Storage) : Prop :=
  LenOK st ∧ CapPow2 st ∧ CapGE st ∧ SizeOK st ∧ LoadOK st ∧
    NoDupKeys st ∧ ChainNE st

/-- Well-formedness of stores built by saves alone (no tombstones):
`WF` plus cleanliness and the Robin-Hood ordering. -/
def WFC (st : Storage) : Prop :=
  WF st ∧ Clean st ∧ NoPass st

/-! Decidability of the invariants (so they can be checked on concrete
stores by `decide`). -/

instance (st : Storage) (i : Nat) : Decidable (occAt st i) :=
  inferInstanceAs (Decidable ((slotAt st i).flag = .occupied))

instance (st : Storage) : Decidable (LenOK st) :=
  inferInstanceAs (Decidable (st.slots.length = st.capacity))

instance (st : Storage) : Decidable (CapPow2 st) :=
  inferInstanceAs (Decidable (∃ m, m < st.capacity + 1 ∧ st.capacity = 2 ^ m))

instance (st : Storage) : Decidable (CapGE st) :=
  inferInstanceAs (Decidable (16 ≤ st.capacity))

instance (st : Storage) : Decidable (SizeOK st) :=
  inferInstanceAs (Decidable (st.size = countOcc st))

instance (st : Storage) : Decidable (LoadOK st) :=
  inferInstanceAs (Decidable (10 * st.size ≤ 7 * st.capacity))

instance (st : Storage) : Decidable (NoDupKeys st) :=
  inferInstanceAs (Decidable (∀ i, i < st.slots.length →
    ∀ j, j < st.slots.length → occAt st i → occAt st j →
    (slotAt st i).key = (slotAt st j).key → i = j))

instance (st : Storage) : Decidable (ChainNE st) :=
  inferInstanceAs (Decidable (∀ i, i < st.slots.length → occAt st i →
    ∀ t, t < distAt st i →
    (slotAt st (probePos st.capacity (homeOf st.capacity (slotAt st i).key) t)).flag
      ≠ .empty))

instance (st : Storage) : Decidable (Clean st) :=
  inferInstanceAs (Decidable (∀ i, i < st.slots.length →
    (slotAt st i).flag ≠ .deleted))

instance (st : Storage) : Decidable (NoPass st) :=
  inferInstanceAs (Decidable (∀ i, i < st.slots.length → occAt st i →
    ∀ t, t < distAt st i →
    occAt st (probePos st.capacity (homeOf st.capacity (slotAt st i).key) t) ∧
      t ≤ distAt st (probePos st.capacity (homeOf st.capacity (slotAt st i).key) t)))

instance (st : Storage) : Decidable (WF st) :=
  inferInstanceAs (Decidable (LenOK st ∧ CapPow2 st ∧ CapGE st ∧ SizeOK st ∧
    LoadOK st ∧ NoDupKeys st ∧ ChainNE st))

instance (st : Storage) : Decidable (WFC st) :=
  inferInstanceAs (Decidable (WF st ∧ Clean st ∧ NoPass st))

/-- The abstraction: the key-to-value mapping a store represents (the
value of the unique occupied slot holding `k`, if any). -/
def model (st : Storage) (k : Nat) : Option (List Nat) :=
  (st.slots.find? fun s => s.flag == Flag.occupied && s.key == k).map (·.val)

/-- The same abstraction on a raw slot list (used while reasoning about
the rehash, which folds over the old table's slot list). -/
def modelL (l : List Slot) (k : Nat) : Option (List Nat) :=
  (l.find? fun s => s.flag == Flag.occupied && s.key == k).map (·.val)

/-- Number of occupied slots in a raw slot list. -/
def countOccL (l : List Slot) : Nat :=
  l.countP fun s => s.flag == Flag.occupied

/-! ## Operation sequences (for the sequence-level claims) -/

/-- A client operation on the store. -/
inductive Op where
  | save (k : Nat) (v : List Nat)
  | remove (k : Nat)
deriving DecidableEq, Repr

/-- Run a sequence of operations from a given store. -/
def execOps (st : Storage) : List Op → Storage
  | [] => st
  | .save k v :: rest => execOps (storage_save st k v) rest
  | .remove k :: rest => execOps (storage_remove st k) rest

/-- The keys targeted by the save operations of a sequence. -/
def saveKeys : List Op → List Nat
  | [] => []
  | .save k _ :: rest => k :: saveKeys rest
  | .remove _ :: rest => saveKeys rest

/-- The live associations left by a sequence: a key is live with value `v`
if some `save k v` occurs and no `remove k` follows it (each `save`
re-appends its key, each `remove` deletes it). -/
def liveAssoc (acc : List (Nat × List Nat)) : List Op → List (Nat × List Nat)
  | [] => acc
  | .save k v :: rest => liveAssoc (acc.filter (fun p => p.1 ≠ k) ++ [(k, v)]) rest
  | .remove k :: rest => liveAssoc (acc.filter fun p => p.1 ≠ k) rest

/-- Run a list of parsed `(id, payload)` records through `storage_save`,
as `AOF_load` does. -/
def replayRecs (st : Storage) (recs : List (Nat × List Nat)) : Storage :=
  recs.foldl (fun s p => storage_save s p.1 p.2) st

/-- The last value a record list writes for key `k`, if any. -/
def lastWrite (recs : List (Nat × List Nat)) (k : Nat) : Option (List Nat) :=
  (recs.filter fun p => p.1 == k).getLast?.map (·.2)

/-- Association-list lookup (first binding wins), the abstraction the
`save`/`remove` bookkeeping of `liveAssoc` is measured against. -/
def lookupA (A : List (Nat × List Nat)) (k : Nat) : Option (List Nat) :=
  (A.find? fun pr => pr.1 == k).map (·.2)

/-! ## Concrete inputs for the counterexamples -/

/-- A store reachable through the public API: `save 0`, `save 1` (keys 0
and 1 share home slot `mix32 _ % 16 = 0`), then `remove 0`, leaving a
tombstone at slot 0 in front of key 1's entry at slot 1. -/
def c8_st0 : Storage :=
  storage_remove (storage_save (storage_save storage_init 0 [5]) 1 [7]) 0

/-- An AOF log re-saving key 1 with a new value `[9]` and then ten fresh
keys 2..11 — enough for the replay to cross the 0.7 load threshold. -/
def c8_recs : List (Nat × List Nat) :=
  (1, [9]) :: (List.range' 2 10).map fun k => (k, [0])

/-- Its on-disk bytes. -/
def c8_log : List Nat :=
  aof_file_of c8_recs

/-- The store after replaying `c8_log` once into `c8_st0`. -/
def c8_once : Storage :=
  match AOF_load_go c8_log c8_st0 with
  | .ok s => s
  | .corrupt => storage_init

/-- The store after replaying `c8_log` a second time. -/
def c8_twice : Storage :=
  match AOF_load_go c8_log c8_once with
  | .ok s => s
  | .corrupt => storage_init

/-- A two-slot table with no empty slot (both occupied): the worst case
for the probe loops of `storage_get` and `storage_remove`, whose C `for`
loops are bounded by `capacity` iterations. -/
def c10_full : Storage :=
  { capacity := 2, size := 2,
    slots := [⟨.occupied, 0, []⟩, ⟨.occupied, 1, []⟩] }

/-!
# Theorems

First a toolbox: little-endian round trips, modular-index arithmetic for
the probe sequence, and `List.getD`/`List.set` interaction.  Then the
representation-invariant development for the store, and finally one theorem
per claim.
-/

/-! ## Little-endian and CRC basics -/

theorem le32_length (x : Nat) : (le32 x).length = 4 := rfl

theorem le64_length (x : Nat) : (le64 x).length = 8 := rfl

theorem dec32_le32 {x : Nat} (h : x < 2 ^ 32) : dec32 (le32 x) = x := by
  simp [dec32, le32, List.getD]
  omega

theorem dec64_le64 {x : Nat} (h : x < 2 ^ 64) : dec64 (le64 x) = x := by
  simp [dec64, le64, List.getD]
  omega

theorem crc32c_bits_lt {n c : Nat} (h : c < 2 ^ 32) : crc32c_bits n c < 2 ^ 32 := by
  induction n generalizing c with
  | zero => exact h
  | succ n ih =>
    refine ih ?_
    unfold crc32c_step
    split
    · exact Nat.xor_lt_two_pow (by omega) (by norm_num)
    · omega

theorem crc32c_lt (prev : Nat) (bytes : List Nat) : crc32c prev bytes < 2 ^ 32 := by
  unfold crc32c
  refine Nat.xor_lt_two_pow ?_ (by norm_num)
  have : ∀ (l : List Nat) (c : Nat), c < 2 ^ 32 → l.foldl crc32c_byte c < 2 ^ 32 := by
    intro l
    induction l with
    | nil => intro c hc; exact hc
    | cons b l ih =>
      intro c hc
      refine ih _ ?_
      unfold crc32c_byte
      exact crc32c_bits_lt (Nat.xor_lt_two_pow hc (by have := Nat.mod_lt b (y := 256) (by norm_num); omega))
  refine this _ _ ?_
  exact Nat.xor_lt_two_pow (Nat.mod_lt _ (by norm_num)) (by norm_num)

set_option maxRecDepth 8000 in
/-- RFC 3720 test vector (spec §4.1): `crc32c(0, "123456789") = 0xE3069283`. -/
theorem crc32c_vector_digits :
    crc32c 0 [0x31, 0x32, 0x33, 0x34, 0x35, 0x36, 0x37, 0x38, 0x39] = 0xE3069283 := by
  decide

set_option maxRecDepth 8000 in
/-- Second spec vector: `crc32c(0, "hello world") = 0xC99465AA`. -/
theorem crc32c_vector_hello :
    crc32c 0 [0x68, 0x65, 0x6C, 0x6C, 0x6F, 0x20, 0x77, 0x6F, 0x72, 0x6C, 0x64]
      = 0xC99465AA := by
  decide

/-! ## Modular probe arithmetic -/

theorem probePos_lt {cap : Nat} (hc : 0 < cap) (h t : Nat) : probePos cap h t < cap :=
  Nat.mod_lt _ hc

theorem pd_lt {cap : Nat} (hc : 0 < cap) (h i : Nat) : pd cap h i < cap :=
  Nat.mod_lt _ hc

theorem probePos_zero {cap : Nat} (h : Nat) (hh : h < cap) : probePos cap h 0 = h := by
  simp [probePos, Nat.mod_eq_of_lt hh]

theorem probePos_succ (cap h t : Nat) :
    probePos cap h (t + 1) = (probePos cap h t + 1) % cap := by
  unfold probePos
  rw [Nat.mod_add_mod, Nat.add_assoc]

theorem probePos_add (cap h a b : Nat) :
    probePos cap (probePos cap h a) b = probePos cap h (a + b) := by
  unfold probePos
  rw [Nat.mod_add_mod, Nat.add_assoc]

theorem probePos_mod (cap h t : Nat) : probePos cap h (t % cap) = probePos cap h t := by
  unfold probePos
  rw [Nat.add_mod h (t % cap), Nat.mod_mod, ← Nat.add_mod]

theorem pd_probePos {cap h t : Nat} (hh : h < cap) (ht : t < cap) :
    pd cap h (probePos cap h t) = t := by
  unfold pd probePos
  rcases Nat.lt_or_ge (h + t) cap with hlt | hge
  · rw [Nat.mod_eq_of_lt hlt]
    have : h + t + cap - h = t + cap := by omega
    rw [this, Nat.add_mod_right, Nat.mod_eq_of_lt ht]
  · have hmod : (h + t) % cap = h + t - cap := by
      have h2 : h + t < 2 * cap := by omega
      rw [Nat.mod_eq_sub_mod hge, Nat.mod_eq_of_lt (by omega)]
    rw [hmod]
    have : h + t - cap + cap - h = t := by omega
    rw [this, Nat.mod_eq_of_lt ht]

theorem probePos_pd {cap h i : Nat} (hh : h < cap) (hi : i < cap) :
    probePos cap h (pd cap h i) = i := by
  unfold pd probePos
  rcases le_or_lt h i with hle | hlt
  · have e1 : i + cap - h = (i - h) + cap := by omega
    rw [e1, Nat.add_mod_right, Nat.mod_eq_of_lt (show i - h < cap by omega)]
    have e2 : h + (i - h) = i := by omega
    rw [e2, Nat.mod_eq_of_lt hi]
  · have e1 : i + cap - h < cap := by omega
    rw [Nat.mod_eq_of_lt e1]
    have e2 : h + (i + cap - h) = i + cap := by omega
    rw [e2, Nat.add_mod_right, Nat.mod_eq_of_lt hi]

theorem probePos_inj {cap h t t' : Nat} (hh : h < cap) (ht : t < cap)
    (ht' : t' < cap) (he : probePos cap h t = probePos cap h t') : t = t' := by
  have h1 := pd_probePos hh ht
  have h2 := pd_probePos hh ht'
  rw [he] at h1
  omega

/-- For a power-of-two capacity the C mask operation is reduction mod
capacity. -/
theorem and_mask_eq_mod {st : Storage} (hp : CapPow2 st) (x : Nat) :
    x &&& (st.capacity - 1) = x % st.capacity := by
  obtain ⟨m, -, hm⟩ := hp
  rw [hm, Nat.and_pow_two_sub_one_eq_mod]

/-! ## `List.getD` / `List.set` interaction -/

theorem getD_set_self {l : List Slot} {i : Nat} (h : i < l.length) (a : Slot) :
    (l.set i a).getD i default = a := by
  rw [List.getD_eq_getElem?_getD, List.getElem?_set_self (by simpa using h)]
  rfl

theorem getD_set_ne {l : List Slot} {i j : Nat} (h : i ≠ j) (a : Slot) :
    (l.set i a).getD j default = l.getD j default := by
  rw [List.getD_eq_getElem?_getD, List.getElem?_set_ne h, ← List.getD_eq_getElem?_getD]

theorem getD_eq_getElem {l : List Slot} {i : Nat} (h : i < l.length) :
    l.getD i default = l[i] := by
  rw [List.getD_eq_getElem?_getD, List.getElem?_eq_getElem h]
  rfl

theorem getD_default_of_ge {l : List Slot} {i : Nat} (h : l.length ≤ i) :
    l.getD i default = default := by
  rw [List.getD_eq_getElem?_getD, List.getElem?_eq_none (by omega)]
  rfl

/-! ## The abstraction `model` -/

theorem model_none_iff {st : Storage} {k : Nat} :
    model st k = none ↔
      ∀ i, i < st.slots.length → ¬(occAt st i ∧ (slotAt st i).key = k) := by
  unfold model
  rw [Option.map_eq_none', List.find?_eq_none]
  constructor
  · intro h i hi ⟨hocc, hkey⟩
    have hmem : slotAt st i ∈ st.slots := by
      rw [slotAt, getD_eq_getElem hi]
      exact List.getElem_mem hi
    have := h _ hmem
    simp only [Bool.and_eq_true, beq_iff_eq] at this
    exact this ⟨hocc, hkey⟩
  · intro h s hs hpred
    simp only [Bool.and_eq_true, beq_iff_eq] at hpred
    obtain ⟨i, hi, hsi⟩ := List.mem_iff_getElem.mp hs
    refine h i hi ⟨?_, ?_⟩
    · rw [occAt, slotAt, getD_eq_getElem hi, hsi]
      exact hpred.1
    · rw [slotAt, getD_eq_getElem hi, hsi]
      exact hpred.2

theorem model_eq_some_of {st : Storage} (nd : NoDupKeys st) {p k : Nat}
    (hp : p < st.slots.length) (hocc : occAt st p)
    (hkey : (slotAt st p).key = k) : model st k = some (slotAt st p).val := by
  rcases hfind : st.slots.find? fun s => s.flag == Flag.occupied && s.key == k with _ | s
  · exfalso
    have := model_none_iff.mp (by rw [model, hfind]; rfl)
    exact this p hp ⟨hocc, hkey⟩
  · have hmem := List.mem_of_find?_eq_some hfind
    have hpred := List.find?_some hfind
    simp only [Bool.and_eq_true, beq_iff_eq] at hpred
    obtain ⟨j, hj, hsj⟩ := List.mem_iff_getElem.mp hmem
    have hoj : occAt st j := by
      rw [occAt, slotAt, getD_eq_getElem hj, hsj]
      exact hpred.1
    have hkj : (slotAt st j).key = k := by
      rw [slotAt, getD_eq_getElem hj, hsj]
      exact hpred.2
    have hjp : j = p := nd j hj p hp hoj hocc (by rw [hkj, hkey])
    rw [model, hfind]
    subst hjp
    rw [slotAt, getD_eq_getElem hj, hsj]
    rfl

theorem model_isSome_of {st : Storage} (nd : NoDupKeys st) {p k : Nat}
    (hp : p < st.slots.length) (hocc : occAt st p)
    (hkey : (slotAt st p).key = k) : model st k ≠ none := by
  rw [model_eq_some_of nd hp hocc hkey]
  simp

/-! ## `storage_get`: soundness and completeness of the probe -/

/-- One unfolding step of the `storage_get` probe loop. -/
theorem getLoop_succ (st : Storage) (k sz idx fuel : Nat) :
    getLoop st k sz idx (fuel + 1) =
      if (st.slots.getD idx default).flag = .empty then none
      else if (st.slots.getD idx default).flag = .occupied ∧
          (st.slots.getD idx default).key = k then
        if sz < (st.slots.getD idx default).val.length then none
        else some (st.slots.getD idx default).val
      else getLoop st k sz ((idx + 1) &&& (st.capacity - 1)) fuel := rfl

theorem getLoop_none_of_absent {st : Storage} {k : Nat}
    (habs : ∀ i, i < st.slots.length → ¬(occAt st i ∧ (slotAt st i).key = k))
    (sz : Nat) : ∀ fuel idx, getLoop st k sz idx fuel = none := by
  intro fuel
  induction fuel with
  | zero => intro idx; rfl
  | succ fuel ih =>
    intro idx
    rw [getLoop_succ]
    by_cases he : (st.slots.getD idx default).flag = .empty
    · rw [if_pos he]
    · rw [if_neg he]
      have hlt : idx < st.slots.length := by
        by_contra hge
        have hd : st.slots.getD idx default = default := getD_default_of_ge (by omega)
        rw [hd] at he
        exact he rfl
      rw [if_neg (show ¬((st.slots.getD idx default).flag = Flag.occupied ∧
        (st.slots.getD idx default).key = k) from habs idx hlt)]
      exact ih _

/-- If no occupied slot holds `k`, `storage_get` misses (for any store;
the loop visits at most `capacity` slots and only ever reports a hit from
an occupied matching slot). -/
theorem storage_get_none_of_absent {st : Storage} {k : Nat}
    (habs : ∀ i, i < st.slots.length → ¬(occAt st i ∧ (slotAt st i).key = k))
    (sz : Nat) : storage_get st k sz = none :=
  getLoop_none_of_absent habs sz _ _

theorem model_some_elim {st : Storage} {k : Nat} {v : List Nat}
    (hm : model st k = some v) :
    ∃ p, p < st.slots.length ∧ occAt st p ∧ (slotAt st p).key = k ∧
      (slotAt st p).val = v := by
  unfold model at hm
  rcases hfind : st.slots.find? fun s => s.flag == Flag.occupied && s.key == k with _ | s
  · rw [hfind] at hm
    exact absurd hm (by simp)
  · rw [hfind] at hm
    have hmem := List.mem_of_find?_eq_some hfind
    have hpred := List.find?_some hfind
    simp only [Bool.and_eq_true, beq_iff_eq] at hpred
    obtain ⟨j, hj, hsj⟩ := List.mem_iff_getElem.mp hmem
    refine ⟨j, hj, ?_, ?_, ?_⟩
    · rw [occAt, slotAt, getD_eq_getElem hj, hsj]
      exact hpred.1
    · rw [slotAt, getD_eq_getElem hj, hsj]
      exact hpred.2
    · rw [slotAt, getD_eq_getElem hj, hsj]
      simpa using hm

theorem getLoop_reach {st : Storage} (hlen : LenOK st) (hp2 : CapPow2 st)
    (nd : NoDupKeys st) (ch : ChainNE st) {p k : Nat}
    (hplen : p < st.slots.length) (hocc : occAt st p)
    (hkey : (slotAt st p).key = k) (sz : Nat) :
    ∀ r t fuel, t + r = distAt st p → r < fuel →
      getLoop st k sz (probePos st.capacity (homeOf st.capacity k) t) fuel =
        if sz < (slotAt st p).val.length then none
        else some (slotAt st p).val := by
  have hc : 0 < st.capacity := by
    obtain ⟨m, -, hm⟩ := hp2
    rw [hm]
    exact Nat.pos_pow_of_pos m (by norm_num)
  have hhome : homeOf st.capacity k < st.capacity := Nat.mod_lt _ hc
  have hpcap : p < st.capacity := hlen ▸ hplen
  intro r
  induction r with
  | zero =>
    intro t fuel ht hfuel
    obtain ⟨fuel, rfl⟩ : ∃ f, fuel = f + 1 := ⟨fuel - 1, by omega⟩
    have hdist : t = distAt st p := by omega
    have hpos : probePos st.capacity (homeOf st.capacity k) t = p := by
      rw [hdist, distAt, hkey]
      exact probePos_pd hhome hpcap
    rw [hpos, getLoop_succ]
    rw [if_neg (show ¬(st.slots.getD p default).flag = Flag.empty by
      rw [show (st.slots.getD p default).flag = Flag.occupied from hocc]
      simp)]
    rw [if_pos (show (st.slots.getD p default).flag = Flag.occupied ∧
      (st.slots.getD p default).key = k from ⟨hocc, hkey⟩)]
    rfl
  | succ r ih =>
    intro t fuel ht hfuel
    obtain ⟨fuel, rfl⟩ : ∃ f, fuel = f + 1 := ⟨fuel - 1, by omega⟩
    have htlt : t < distAt st p := by omega
    have hdlt : distAt st p < st.capacity := pd_lt hc _ _
    have hne : (st.slots.getD (probePos st.capacity (homeOf st.capacity k) t)
        default).flag ≠ .empty := by
      have := ch p hplen hocc t htlt
      rwa [hkey] at this
    have hjlt : probePos st.capacity (homeOf st.capacity k) t < st.slots.length := by
      rw [hlen]
      exact probePos_lt hc _ _
    have hnk : ¬(occAt st (probePos st.capacity (homeOf st.capacity k) t) ∧
        (slotAt st (probePos st.capacity (homeOf st.capacity k) t)).key = k) := by
      rintro ⟨ho, hk⟩
      have hjp : probePos st.capacity (homeOf st.capacity k) t = p :=
        nd _ hjlt p hplen ho hocc (by rw [hk, hkey])
      have : probePos st.capacity (homeOf st.capacity k) t
          = probePos st.capacity (homeOf st.capacity k) (distAt st p) := by
        rw [hjp, distAt, hkey]
        exact (probePos_pd hhome hpcap).symm
      have := probePos_inj hhome (by omega) hdlt this
      omega
    rw [getLoop_succ, if_neg hne,
      if_neg (show ¬((st.slots.getD (probePos st.capacity (homeOf st.capacity k) t)
          default).flag = Flag.occupied ∧
        (st.slots.getD (probePos st.capacity (homeOf st.capacity k) t)
          default).key = k) from hnk)]
    rw [and_mask_eq_mod hp2, ← probePos_succ]
    exact ih (t + 1) fuel (by omega) (by omega)

/-- `storage_get` through the abstraction: on a well-formed store the probe
finds the unique occupied slot for `k` (if any) and compares `out_sz`
against its length. -/
theorem storage_get_model {st : Storage} (hlen : LenOK st) (hp2 : CapPow2 st)
    (nd : NoDupKeys st) (ch : ChainNE st) (k sz : Nat) :
    storage_get st k sz =
      match model st k with
      | some v => if sz < v.length then none else some v
      | none => none := by
  have hc : 0 < st.capacity := by
    obtain ⟨m, -, hm⟩ := hp2
    rw [hm]
    exact Nat.pos_pow_of_pos m (by norm_num)
  rcases hm : model st k with _ | v
  · exact storage_get_none_of_absent (by
      intro i hi hcon
      exact absurd hm (model_isSome_of nd hi hcon.1 hcon.2)) sz
  · obtain ⟨p, hplen, hocc, hkey, hval⟩ := model_some_elim hm
    have hhome : homeOf st.capacity k < st.capacity := Nat.mod_lt _ hc
    have h0 : mix32 k &&& (st.capacity - 1)
        = probePos st.capacity (homeOf st.capacity k) 0 := by
      rw [and_mask_eq_mod hp2, probePos_zero _ hhome]
      rfl
    rw [storage_get, h0,
      getLoop_reach hlen hp2 nd ch hplen hocc hkey sz (distAt st p) 0
        st.capacity (by omega) (pd_lt hc _ _), hval]

/-! ## `storage_remove`: miss and hit -/

/-- One unfolding step of the `storage_remove` probe loop. -/
theorem removeLoop_succ (st : Storage) (k idx fuel : Nat) :
    removeLoop st k idx (fuel + 1) =
      if (st.slots.getD idx default).flag = .empty then st
      else if (st.slots.getD idx default).flag = .occupied ∧
          (st.slots.getD idx default).key = k then
        { st with
          slots := st.slots.set idx ⟨.deleted, (st.slots.getD idx default).key, []⟩,
          size := st.size - 1 }
      else removeLoop st k ((idx + 1) &&& (st.capacity - 1)) fuel := rfl

theorem removeLoop_of_absent {st : Storage} {k : Nat}
    (habs : ∀ i, i < st.slots.length → ¬(occAt st i ∧ (slotAt st i).key = k)) :
    ∀ fuel idx, removeLoop st k idx fuel = st := by
  intro fuel
  induction fuel with
  | zero => intro idx; rfl
  | succ fuel ih =>
    intro idx
    rw [removeLoop_succ]
    by_cases he : (st.slots.getD idx default).flag = .empty
    · rw [if_pos he]
    · rw [if_neg he]
      have hlt : idx < st.slots.length := by
        by_contra hge
        have hd : st.slots.getD idx default = default := getD_default_of_ge (by omega)
        rw [hd] at he
        exact he rfl
      rw [if_neg (show ¬((st.slots.getD idx default).flag = Flag.occupied ∧
        (st.slots.getD idx default).key = k) from habs idx hlt)]
      exact ih _

/-- `storage_remove` on an absent key is a no-op, for any store. -/
theorem storage_remove_of_absent {st : Storage} {k : Nat}
    (habs : ∀ i, i < st.slots.length → ¬(occAt st i ∧ (slotAt st i).key = k)) :
    storage_remove st k = st :=
  removeLoop_of_absent habs _ _

theorem removeLoop_reach {st : Storage} (hlen : LenOK st) (hp2 : CapPow2 st)
    (nd : NoDupKeys st) (ch : ChainNE st) {p k : Nat}
    (hplen : p < st.slots.length) (hocc : occAt st p)
    (hkey : (slotAt st p).key = k) :
    ∀ r t fuel, t + r = distAt st p → r < fuel →
      removeLoop st k (probePos st.capacity (homeOf st.capacity k) t) fuel =
        { st with
          slots := st.slots.set p ⟨.deleted, (slotAt st p).key, []⟩
          size := st.size - 1 } := by
  have hc : 0 < st.capacity := by
    obtain ⟨m, -, hm⟩ := hp2
    rw [hm]
    exact Nat.pos_pow_of_pos m (by norm_num)
  have hhome : homeOf st.capacity k < st.capacity := Nat.mod_lt _ hc
  have hpcap : p < st.capacity := hlen ▸ hplen
  intro r
  induction r with
  | zero =>
    intro t fuel ht hfuel
    obtain ⟨fuel, rfl⟩ : ∃ f, fuel = f + 1 := ⟨fuel - 1, by omega⟩
    have hdist : t = distAt st p := by omega
    have hpos : probePos st.capacity (homeOf st.capacity k) t = p := by
      rw [hdist, distAt, hkey]
      exact probePos_pd hhome hpcap
    rw [hpos, removeLoop_succ]
    rw [if_neg (show ¬(st.slots.getD p default).flag = Flag.empty by
      rw [show (st.slots.getD p default).flag = Flag.occupied from hocc]
      simp)]
    rw [if_pos (show (st.slots.getD p default).flag = Flag.occupied ∧
      (st.slots.getD p default).key = k from ⟨hocc, hkey⟩)]
    rfl
  | succ r ih =>
    intro t fuel ht hfuel
    obtain ⟨fuel, rfl⟩ : ∃ f, fuel = f + 1 := ⟨fuel - 1, by omega⟩
    have htlt : t < distAt st p := by omega
    have hdlt : distAt st p < st.capacity := pd_lt hc _ _
    have hne : (st.slots.getD (probePos st.capacity (homeOf st.capacity k) t)
        default).flag ≠ .empty := by
      have := ch p hplen hocc t htlt
      rwa [hkey] at this
    have hjlt : probePos st.capacity (homeOf st.capacity k) t < st.slots.length := by
      rw [hlen]
      exact probePos_lt hc _ _
    have hnk : ¬(occAt st (probePos st.capacity (homeOf st.capacity k) t) ∧
        (slotAt st (probePos st.capacity (homeOf st.capacity k) t)).key = k) := by
      rintro ⟨ho, hk⟩
      have hjp : probePos st.capacity (homeOf st.capacity k) t = p :=
        nd _ hjlt p hplen ho hocc (by rw [hk, hkey])
      have : probePos st.capacity (homeOf st.capacity k) t
          = probePos st.capacity (homeOf st.capacity k) (distAt st p) := by
        rw [hjp, distAt, hkey]
        exact (probePos_pd hhome hpcap).symm
      have := probePos_inj hhome (by omega) hdlt this
      omega
    rw [removeLoop_succ, if_neg hne,
      if_neg (show ¬((st.slots.getD (probePos st.capacity (homeOf st.capacity k) t)
          default).flag = Flag.occupied ∧
        (st.slots.getD (probePos st.capacity (homeOf st.capacity k) t)
          default).key = k) from hnk)]
    rw [and_mask_eq_mod hp2, ← probePos_succ]
    exact ih (t + 1) fuel (by omega) (by omega)

/-! ## Counting and `find?` under a single-slot update -/

theorem countP_set (p : Slot → Bool) :
    ∀ (l : List Slot) (i : Nat) (a : Slot), i < l.length →
      (l.set i a).countP p + (if p (l.getD i default) then 1 else 0) =
        l.countP p + (if p a then 1 else 0) := by
  intro l
  induction l with
  | nil => intro i a h; simp at h
  | cons x xs ih =>
    intro i a h
    cases i with
    | zero =>
      simp only [List.set_cons_zero, List.countP_cons, List.getD_cons_zero]
      by_cases hx : p x <;> by_cases ha : p a <;> simp [hx, ha]
    | succ i =>
      have h2 := ih i a (by simpa using h)
      simp only [List.set_cons_succ, List.countP_cons, List.getD_cons_succ]
      omega

theorem find?_set_congr {p : Slot → Bool} :
    ∀ (l : List Slot) (i : Nat) (a : Slot),
      p (l.getD i default) = false → p a = false →
      (l.set i a).find? p = l.find? p := by
  intro l
  induction l with
  | nil => intro i a _ _; rfl
  | cons x xs ih =>
    intro i a h1 h2
    cases i with
    | zero =>
      simp only [List.getD_cons_zero] at h1
      simp only [List.set_cons_zero, List.find?_cons, h1, h2]
    | succ i =>
      simp only [List.getD_cons_succ] at h1
      simp only [List.set_cons_succ, List.find?_cons]
      cases p x
      · exact ih i a h1 h2
      · rfl

/-! ## The `storage_save` probing loop -/

/-- One unfolding step of the `storage_save` probing loop. -/
theorem saveLoop_succ (st : Storage) (nk : Nat) (nv : List Nat)
    (dist idx fuel : Nat) :
    saveLoop (fuel + 1) st nk nv dist idx =
      if (st.slots.getD idx default).flag ≠ .occupied then
        { st with
          slots := st.slots.set idx ⟨.occupied, nk, nv⟩
          size := st.size + 1 }
      else if (idx + st.capacity -
          (mix32 (st.slots.getD idx default).key &&& (st.capacity - 1))) &&&
            (st.capacity - 1) < dist then
        saveLoop fuel { st with slots := st.slots.set idx ⟨.occupied, nk, nv⟩ }
          (st.slots.getD idx default).key (st.slots.getD idx default).val
          (((idx + st.capacity -
            (mix32 (st.slots.getD idx default).key &&& (st.capacity - 1))) &&&
              (st.capacity - 1)) + 1)
          ((idx + 1) &&& (st.capacity - 1))
      else if (st.slots.getD idx default).key = nk then
        { st with
          slots := st.slots.set idx
            ⟨.occupied, (st.slots.getD idx default).key, nv⟩ }
      else saveLoop fuel st nk nv (dist + 1) ((idx + 1) &&& (st.capacity - 1)) := by
  simp only [saveLoop]

/-- Placement step of the probing loop: installing the carried fresh entry
`(nk, nv)` in a non-occupied slot at probe distance `dist` preserves the
representation invariants, adds one occupied slot, and updates the
abstraction.  `st1` is the updated store. -/
theorem savePlace_spec {cap : Nat} (hcap : 0 < cap)
    {st st1 : Storage} {nk : Nat} {nv : List Nat} {dist idx : Nat}
    (hcapeq : st.capacity = cap)
    (hlen : st.slots.length = cap)
    (nd : NoDupKeys st)
    (ch : ChainNE st)
    (hfresh : ∀ i, i < cap → occAt st i → (slotAt st i).key ≠ nk)
    (hwalk : ∀ t, t < dist →
      (slotAt st (probePos cap (homeOf cap nk) t)).flag ≠ .empty)
    (hpos : idx = probePos cap (homeOf cap nk) dist)
    (hdist : dist ≤ cap)
    (hno : ¬occAt st idx)
    (hs1 : st1 = { st with
      slots := st.slots.set idx ⟨.occupied, nk, nv⟩
      size := st.size + 1 }) :
    st1.capacity = cap ∧ st1.slots.length = cap ∧ st1.size = st.size + 1 ∧
    countOcc st1 = countOcc st + 1 ∧ NoDupKeys st1 ∧ ChainNE st1 ∧
    (∀ q, model st1 q = if q = nk then some nv else model st q) ∧
    (Clean st → Clean st1) ∧
    (Clean st → NoPass st →
      (∀ t, t < dist → t ≤ distAt st (probePos cap (homeOf cap nk) t)) →
      NoPass st1) := by
  have hhome : homeOf cap nk < cap := Nat.mod_lt _ hcap
  have hidxcap : idx < cap := hpos ▸ probePos_lt hcap _ _
  have hidxlen : idx < st.slots.length := by omega
  have hcap1 : st1.capacity = cap := by rw [hs1]; exact hcapeq
  have hsize1 : st1.size = st.size + 1 := by rw [hs1]
  have hlen1 : st1.slots.length = cap := by
    rw [hs1]
    simpa [List.length_set] using hlen
  have h1ne : ∀ j, j ≠ idx → slotAt st1 j = slotAt st j := by
    intro j hj
    rw [hs1]
    exact getD_set_ne (fun he => hj he.symm) _
  have h1idx : slotAt st1 idx = ⟨.occupied, nk, nv⟩ := by
    rw [hs1]
    exact getD_set_self hidxlen _
  have hocc1_ne : ∀ j, j ≠ idx → (occAt st1 j ↔ occAt st j) := by
    intro j hj
    unfold occAt
    rw [h1ne j hj]
  have hocc1_idx : occAt st1 idx := by
    unfold occAt
    rw [h1idx]
  have hdist1_ne : ∀ j, j ≠ idx → distAt st1 j = distAt st j := by
    intro j hj
    unfold distAt
    rw [h1ne j hj, hcap1, hcapeq]
  have hdist1_idx : distAt st1 idx = pd cap (homeOf cap nk) idx := by
    unfold distAt
    rw [h1idx, hcap1]
  -- the placed entry's probe distance: `dist`, or 0 in the wrap-around case
  have hdist1_cases : (dist < cap ∧ distAt st1 idx = dist) ∨
      (dist = cap ∧ distAt st1 idx = 0) := by
    rcases Nat.lt_or_ge dist cap with hdlt | hdge
    · left
      refine ⟨hdlt, ?_⟩
      rw [hdist1_idx, hpos, pd_probePos hhome hdlt]
    · right
      have hde : dist = cap := by omega
      refine ⟨hde, ?_⟩
      rw [hdist1_idx, hpos, hde, ← probePos_mod, Nat.mod_self, probePos_zero _ hhome]
      unfold pd
      have : homeOf cap nk + cap - homeOf cap nk = cap := by omega
      rw [this, Nat.mod_self]
  have hcount1 : countOcc st1 = countOcc st + 1 := by
    have hnof : ((st.slots.getD idx default).flag == Flag.occupied) = false := by
      simp only [beq_eq_false_iff_ne]
      exact hno
    have hc := countP_set (fun s => s.flag == Flag.occupied) st.slots idx
      ⟨.occupied, nk, nv⟩ hidxlen
    simp only [hnof] at hc
    norm_num at hc
    unfold countOcc
    rw [hs1]
    simpa using hc
  have nd1 : NoDupKeys st1 := by
    intro i hi j hj hoi hoj hk
    rw [hlen1] at hi hj
    by_cases hi' : i = idx <;> by_cases hj' : j = idx
    · omega
    · exfalso
      rw [hi', h1idx] at hk
      rw [h1ne j hj'] at hk
      exact hfresh j (by omega) ((hocc1_ne j hj').mp hoj) hk.symm
    · exfalso
      rw [hj', h1idx] at hk
      rw [h1ne i hi'] at hk
      exact hfresh i (by omega) ((hocc1_ne i hi').mp hoi) hk
    · rw [h1ne i hi', h1ne j hj'] at hk
      exact nd i (by omega) j (by omega) ((hocc1_ne i hi').mp hoi)
        ((hocc1_ne j hj').mp hoj) hk
  have ch1 : ChainNE st1 := by
    intro i hi hoi t ht
    rw [hlen1] at hi
    by_cases hi' : i = idx
    · subst hi'
      rw [hcap1, h1idx]
      rcases hdist1_cases with ⟨hdlt, hd⟩ | ⟨-, hd⟩
      · rw [hd] at ht
        have hten : probePos cap (homeOf cap nk) t ≠ i := by
          rw [hpos]
          intro he
          have := probePos_inj hhome (by omega) (by omega) he
          omega
        rw [h1ne _ hten]
        exact hwalk t ht
      · rw [hd] at ht
        omega
    · have hoi' : occAt st i := (hocc1_ne i hi').mp hoi
      rw [hdist1_ne i hi'] at ht
      rw [hcap1, h1ne i hi']
      by_cases hj : probePos cap (homeOf cap (slotAt st i).key) t = idx
      · rw [hj, h1idx]
        simp
      · rw [h1ne _ hj]
        have := ch i (by omega) hoi' t ht
        rwa [hcapeq] at this
  have hmodel1 : ∀ q, model st1 q = if q = nk then some nv else model st q := by
    intro q
    by_cases hq : q = nk
    · rw [if_pos hq, hq]
      have := model_eq_some_of nd1 (show idx < st1.slots.length by omega)
        hocc1_idx (by rw [h1idx])
      rw [this, h1idx]
    · rw [if_neg hq, hs1, model, model]
      rw [find?_set_congr st.slots idx _
        (by
          simp only [Bool.and_eq_false_iff, beq_eq_false_iff_ne]
          left
          simpa [occAt, slotAt] using hno)
        (by
          simp only [Bool.and_eq_false_iff, beq_eq_false_iff_ne]
          right
          exact fun h => hq h.symm)]
  have hclean1 : Clean st → Clean st1 := by
    intro hclean i hi
    by_cases hi' : i = idx
    · rw [hi', h1idx]
      simp
    · rw [h1ne i hi']
      exact hclean i (by rw [hlen1] at hi; omega)
  refine ⟨hcap1, hlen1, hsize1, hcount1, nd1, ch1, hmodel1, hclean1, ?_⟩
  intro hclean hnp hcnp
  have hempty : (slotAt st idx).flag = .empty := by
    rcases hf : (slotAt st idx).flag
    · rfl
    · exact absurd hf hno
    · exact absurd hf (hclean idx hidxlen)
  intro i hi hoi t ht
  rw [hlen1] at hi
  by_cases hi' : i = idx
  · subst hi'
    rw [hcap1, h1idx]
    rcases hdist1_cases with ⟨hdlt, hd⟩ | ⟨-, hd⟩
    · rw [hd] at ht
      have hten : probePos cap (homeOf cap nk) t ≠ i := by
        rw [hpos]
        intro he
        have := probePos_inj hhome (by omega) (by omega) he
        omega
      have hposlt : probePos cap (homeOf cap nk) t < cap := probePos_lt hcap _ _
      have hoccst : occAt st (probePos cap (homeOf cap nk) t) := by
        have h1 := hwalk t ht
        have h2 := hclean (probePos cap (homeOf cap nk) t) (by omega)
        rcases hf : (slotAt st (probePos cap (homeOf cap nk) t)).flag
        · exact absurd hf h1
        · exact hf
        · exact absurd hf h2
      constructor
      · rw [occAt, h1ne _ hten]
        exact hoccst
      · rw [hdist1_ne _ hten]
        exact hcnp t ht
    · rw [hd] at ht
      omega
  · have hoi' : occAt st i := (hocc1_ne i hi').mp hoi
    rw [hcap1, h1ne i hi']
    rw [hdist1_ne i hi'] at ht
    have hnpst := hnp i (by omega) hoi' t ht
    rw [hcapeq] at hnpst
    have hjne : probePos cap (homeOf cap (slotAt st i).key) t ≠ idx := by
      intro he
      have := hnpst.1
      rw [he] at this
      exact hno this
    constructor
    · rw [occAt, h1ne _ hjne]
      exact hnpst.1
    · rw [hdist1_ne _ hjne]
      exact hnpst.2



/-! ## `storage_save` on an existing key (clean world): straight overwrite -/

/-- Robin-Hood swap step of the probing loop: installing the carried fresh
entry `(nk, nv)` over a "richer" occupant re-establishes the loop invariant
for the displaced occupant at distance `distAt st idx + 1` and position
`(idx+1) % cap`, preserving sizes and the invariants. -/
theorem saveSwap_spec {cap : Nat} (hcap : 0 < cap)
    {st st1 : Storage} {nk : Nat} {nv : List Nat} {dist idx : Nat}
    (hcapeq : st.capacity = cap)
    (hlen : st.slots.length = cap)
    (nd : NoDupKeys st)
    (ch : ChainNE st)
    (hfresh : ∀ i, i < cap → occAt st i → (slotAt st i).key ≠ nk)
    (hwalk : ∀ t, t < dist →
      (slotAt st (probePos cap (homeOf cap nk) t)).flag ≠ .empty)
    (hpos : idx = probePos cap (homeOf cap nk) dist)
    (hdist : dist ≤ cap)
    (hocc : occAt st idx)
    (hswap : distAt st idx < dist)
    (hfrontslot : ∃ j, j < cap ∧ ¬occAt st j)
    (hs1 : st1 = { st with slots := st.slots.set idx ⟨.occupied, nk, nv⟩ }) :
    st1.capacity = cap ∧ st1.slots.length = cap ∧ st1.size = st.size ∧
    countOcc st1 = countOcc st ∧ NoDupKeys st1 ∧ ChainNE st1 ∧
    (∀ j, j ≠ idx → (occAt st1 j ↔ occAt st j)) ∧
    (∀ i, i < cap → occAt st1 i → (slotAt st1 i).key ≠ (slotAt st idx).key) ∧
    (∀ t, t < distAt st idx + 1 →
      (slotAt st1 (probePos cap (homeOf cap (slotAt st idx).key) t)).flag
        ≠ .empty) ∧
    ((idx + 1) % cap
      = probePos cap (homeOf cap (slotAt st idx).key) (distAt st idx + 1)) ∧
    distAt st idx + 1 ≤ cap ∧
    model st (slotAt st idx).key = some (slotAt st idx).val ∧
    (∀ q, q ≠ nk → q ≠ (slotAt st idx).key → model st1 q = model st q) ∧
    model st1 nk = some nv ∧
    (Clean st → Clean st1) ∧
    (Clean st → NoPass st →
      (∀ t, t < dist → t ≤ distAt st (probePos cap (homeOf cap nk) t)) →
      NoPass st1 ∧
      (∀ t, t < distAt st idx + 1 →
        t ≤ distAt st1 (probePos cap (homeOf cap (slotAt st idx).key) t))) := by
  have hhome : homeOf cap nk < cap := Nat.mod_lt _ hcap
  have hhome' : homeOf cap (slotAt st idx).key < cap := Nat.mod_lt _ hcap
  have hidxcap : idx < cap := hpos ▸ probePos_lt hcap _ _
  have hidxlen : idx < st.slots.length := by omega
  have hkne : (slotAt st idx).key ≠ nk := hfresh idx hidxcap hocc
  have hcap1 : st1.capacity = cap := by rw [hs1]; exact hcapeq
  have hsize1 : st1.size = st.size := by rw [hs1]
  have hlen1 : st1.slots.length = cap := by
    rw [hs1]
    simpa [List.length_set] using hlen
  have h1ne : ∀ j, j ≠ idx → slotAt st1 j = slotAt st j := by
    intro j hj
    rw [hs1]
    exact getD_set_ne (fun he => hj he.symm) _
  have h1idx : slotAt st1 idx = ⟨.occupied, nk, nv⟩ := by
    rw [hs1]
    exact getD_set_self hidxlen _
  have hocc1_ne : ∀ j, j ≠ idx → (occAt st1 j ↔ occAt st j) := by
    intro j hj
    unfold occAt
    rw [h1ne j hj]
  have hocc1_idx : occAt st1 idx := by
    unfold occAt
    rw [h1idx]
  have hdist1_ne : ∀ j, j ≠ idx → distAt st1 j = distAt st j := by
    intro j hj
    unfold distAt
    rw [h1ne j hj, hcap1, hcapeq]
  have hdist1_idx : distAt st1 idx = pd cap (homeOf cap nk) idx := by
    unfold distAt
    rw [h1idx, hcap1]
  have hcurlt : distAt st idx < cap := by
    unfold distAt
    rw [hcapeq]
    exact pd_lt hcap _ _
  have hposck : idx
      = probePos cap (homeOf cap (slotAt st idx).key) (distAt st idx) := by
    unfold distAt
    rw [hcapeq]
    exact (probePos_pd hhome' hidxcap).symm
  have hcount1 : countOcc st1 = countOcc st := by
    have htrue : ((st.slots.getD idx default).flag == Flag.occupied) = true := by
      simp only [beq_iff_eq]
      exact hocc
    have hc := countP_set (fun s => s.flag == Flag.occupied) st.slots idx
      ⟨.occupied, nk, nv⟩ hidxlen
    simp only [htrue] at hc
    norm_num at hc
    unfold countOcc
    rw [hs1]
    simpa using hc
  have nd1 : NoDupKeys st1 := by
    intro i hi j hj hoi hoj hk
    rw [hlen1] at hi hj
    by_cases hi' : i = idx <;> by_cases hj' : j = idx
    · omega
    · exfalso
      rw [hi', h1idx] at hk
      rw [h1ne j hj'] at hk
      exact hfresh j (by omega) ((hocc1_ne j hj').mp hoj) hk.symm
    · exfalso
      rw [hj', h1idx] at hk
      rw [h1ne i hi'] at hk
      exact hfresh i (by omega) ((hocc1_ne i hi').mp hoi) hk
    · rw [h1ne i hi', h1ne j hj'] at hk
      exact nd i (by omega) j (by omega) ((hocc1_ne i hi').mp hoi)
        ((hocc1_ne j hj').mp hoj) hk
  have ch1 : ChainNE st1 := by
    intro i hi hoi t ht
    rw [hlen1] at hi
    by_cases hi' : i = idx
    · subst hi'
      rw [hcap1, h1idx]
      rw [hdist1_idx, hpos] at ht
      have hdlt' : dist < cap ∨ dist = cap := by omega
      rcases hdlt' with hdlt | hde
      · rw [pd_probePos hhome hdlt] at ht
        have hten : probePos cap (homeOf cap nk) t ≠ i := by
          rw [hpos]
          intro he
          have := probePos_inj hhome (by omega) hdlt he
          omega
        rw [h1ne _ hten]
        exact hwalk t ht
      · rw [hde, ← probePos_mod, Nat.mod_self, probePos_zero _ hhome] at ht
        unfold pd at ht
        have he2 : homeOf cap nk + cap - homeOf cap nk = cap := by omega
        rw [he2, Nat.mod_self] at ht
        omega
    · have hoi' : occAt st i := (hocc1_ne i hi').mp hoi
      rw [hdist1_ne i hi'] at ht
      rw [hcap1, h1ne i hi']
      by_cases hj : probePos cap (homeOf cap (slotAt st i).key) t = idx
      · rw [hj, h1idx]
        simp
      · rw [h1ne _ hj]
        have := ch i (by omega) hoi' t ht
        rwa [hcapeq] at this
  have hfresh1 : ∀ i, i < cap → occAt st1 i →
      (slotAt st1 i).key ≠ (slotAt st idx).key := by
    intro i hi hoi
    by_cases hi' : i = idx
    · rw [hi', h1idx]
      exact fun h => hkne h.symm
    · rw [h1ne i hi']
      intro hk
      exact hi' (nd i (by omega) idx hidxlen ((hocc1_ne i hi').mp hoi) hocc hk)
  have hwalk1 : ∀ t, t < distAt st idx + 1 →
      (slotAt st1 (probePos cap (homeOf cap (slotAt st idx).key) t)).flag
        ≠ .empty := by
    intro t ht
    rcases Nat.lt_or_ge t (distAt st idx) with hlt | hge
    · have hje : probePos cap (homeOf cap (slotAt st idx).key) t ≠ idx := by
        intro he
        have he2 : probePos cap (homeOf cap (slotAt st idx).key) t
            = probePos cap (homeOf cap (slotAt st idx).key) (distAt st idx) := by
          rw [he]
          exact hposck
        have het : t = distAt st idx :=
          probePos_inj hhome' (show t < cap by omega) hcurlt he2
        omega
      rw [h1ne _ hje]
      have := ch idx hidxlen hocc t hlt
      rwa [hcapeq] at this
    · have hte : t = distAt st idx := by omega
      rw [hte, ← hposck, h1idx]
      simp
  have hpos1 : (idx + 1) % cap
      = probePos cap (homeOf cap (slotAt st idx).key) (distAt st idx + 1) := by
    rw [probePos_succ, ← hposck]
  have hmodel_ck : model st (slotAt st idx).key = some (slotAt st idx).val :=
    model_eq_some_of nd hidxlen hocc rfl
  have hmodel1_other : ∀ q, q ≠ nk → q ≠ (slotAt st idx).key →
      model st1 q = model st q := by
    intro q hq1 hq2
    rw [hs1, model, model]
    rw [find?_set_congr st.slots idx _
      (by
        simp only [Bool.and_eq_false_iff, beq_eq_false_iff_ne]
        right
        exact fun h => hq2 h.symm)
      (by
        simp only [Bool.and_eq_false_iff, beq_eq_false_iff_ne]
        right
        exact fun h => hq1 h.symm)]
  have hmodel1_nk : model st1 nk = some nv := by
    have := model_eq_some_of nd1 (show idx < st1.slots.length by omega)
      hocc1_idx (by rw [h1idx])
    rw [this, h1idx]
  have hclean1 : Clean st → Clean st1 := by
    intro hclean i hi
    by_cases hi' : i = idx
    · rw [hi', h1idx]
      simp
    · rw [h1ne i hi']
      exact hclean i (by rw [hlen1] at hi; omega)
  refine ⟨hcap1, hlen1, hsize1, hcount1, nd1, ch1, hocc1_ne, hfresh1, hwalk1,
    hpos1, by omega, hmodel_ck, hmodel1_other, hmodel1_nk, hclean1, ?_⟩
  intro hclean hnp hcnp
  have hwalkocc : ∀ t, t < dist → occAt st (probePos cap (homeOf cap nk) t) := by
    intro t ht
    have h1 := hwalk t ht
    have h2 := hclean (probePos cap (homeOf cap nk) t)
      (by rw [hlen]; exact probePos_lt hcap _ _)
    rcases hf : (slotAt st (probePos cap (homeOf cap nk) t)).flag
    · exact absurd hf h1
    · exact hf
    · exact absurd hf h2
  have hdlt : dist < cap := by
    by_contra h
    have hde : dist = cap := by omega
    obtain ⟨j, hj, hnoj⟩ := hfrontslot
    have := hwalkocc (pd cap (homeOf cap nk) j) (by rw [hde]; exact pd_lt hcap _ _)
    rw [probePos_pd hhome hj] at this
    exact hnoj this
  have hdistidx1 : distAt st1 idx = dist := by
    rw [hdist1_idx, hpos, pd_probePos hhome hdlt]
  constructor
  · intro i hi hoi t ht
    rw [hlen1] at hi
    by_cases hi' : i = idx
    · subst hi'
      rw [hcap1, h1idx]
      rw [hdistidx1] at ht
      have hten : probePos cap (homeOf cap nk) t ≠ i := by
        rw [hpos]
        intro he
        have := probePos_inj hhome (by omega) hdlt he
        omega
      constructor
      · rw [occAt, h1ne _ hten]
        exact hwalkocc t ht
      · rw [hdist1_ne _ hten]
        exact hcnp t ht
    · have hoi' : occAt st i := (hocc1_ne i hi').mp hoi
      rw [hcap1, h1ne i hi']
      rw [hdist1_ne i hi'] at ht
      have hnpst := hnp i (by omega) hoi' t ht
      rw [hcapeq] at hnpst
      by_cases hj : probePos cap (homeOf cap (slotAt st i).key) t = idx
      · constructor
        · rw [hj]
          exact hocc1_idx
        · rw [hj, hdistidx1]
          have := hnpst.2
          rw [hj] at this
          omega
      · constructor
        · rw [occAt, h1ne _ hj]
          exact hnpst.1
        · rw [hdist1_ne _ hj]
          exact hnpst.2
  · intro t ht
    rcases Nat.lt_or_ge t (distAt st idx) with hlt | hge
    · have hnpidx := hnp idx hidxlen hocc t hlt
      rw [hcapeq] at hnpidx
      have hje : probePos cap (homeOf cap (slotAt st idx).key) t ≠ idx := by
        intro he
        have he2 : probePos cap (homeOf cap (slotAt st idx).key) t
            = probePos cap (homeOf cap (slotAt st idx).key) (distAt st idx) := by
          rw [he]
          exact hposck
        have het : t = distAt st idx :=
          probePos_inj hhome' (show t < cap by omega) hcurlt he2
        omega
      rw [hdist1_ne _ hje]
      exact hnpidx.2
    · have hte : t = distAt st idx := by omega
      rw [hte, ← hposck, hdistidx1]
      omega

/-- The heart of the development: running the probing loop with a key that
is not yet in the table places it (after any number of Robin-Hood swaps),
adds exactly one occupied slot, preserves the representation invariants,
and updates the abstraction pointwise.  The hypotheses form the loop
invariant relating the in-flight entry `(nk, nv)` at probe distance `dist`
and position `idx` to the table; the existential supplies a non-occupied
slot within the remaining fuel, which is why the C `for (;;)` terminates. -/
theorem saveLoop_insert {cap : Nat} (hcap : 0 < cap) (hpow : ∃ m, cap = 2 ^ m) :
    ∀ (fuel : Nat) (st : Storage) (nk : Nat) (nv : List Nat) (dist idx : Nat),
      st.capacity = cap →
      st.slots.length = cap →
      NoDupKeys st →
      ChainNE st →
      (∀ i, i < cap → occAt st i → (slotAt st i).key ≠ nk) →
      (∀ t, t < dist →
        (slotAt st (probePos cap (homeOf cap nk) t)).flag ≠ .empty) →
      idx = probePos cap (homeOf cap nk) dist →
      dist ≤ cap →
      (∃ t, t < fuel ∧ ¬occAt st ((idx + t) % cap)) →
      (saveLoop fuel st nk nv dist idx).capacity = cap ∧
      (saveLoop fuel st nk nv dist idx).slots.length = cap ∧
      (saveLoop fuel st nk nv dist idx).size = st.size + 1 ∧
      countOcc (saveLoop fuel st nk nv dist idx) = countOcc st + 1 ∧
      NoDupKeys (saveLoop fuel st nk nv dist idx) ∧
      ChainNE (saveLoop fuel st nk nv dist idx) ∧
      (∀ q, model (saveLoop fuel st nk nv dist idx) q =
        if q = nk then some nv else model st q) ∧
      (Clean st → Clean (saveLoop fuel st nk nv dist idx)) ∧
      (Clean st → NoPass st →
        (∀ t, t < dist → t ≤ distAt st (probePos cap (homeOf cap nk) t)) →
        NoPass (saveLoop fuel st nk nv dist idx)) := by
  intro fuel
  induction fuel with
  | zero =>
    intro st nk nv dist idx _ _ _ _ _ _ _ _ hfront
    obtain ⟨t, ht, -⟩ := hfront
    omega
  | succ fuel ih =>
    intro st nk nv dist idx hcapeq hlen nd ch hfresh hwalk hpos hdist hfront
    have hmask : ∀ x : Nat, x &&& (cap - 1) = x % cap := by
      intro x
      obtain ⟨m, hm⟩ := hpow
      rw [hm, Nat.and_pow_two_sub_one_eq_mod]
    have hhome : homeOf cap nk < cap := Nat.mod_lt _ hcap
    have hidxcap : idx < cap := hpos ▸ probePos_lt hcap _ _
    have hidxlen : idx < st.slots.length := by omega
    have hm1 : (idx + 1) &&& (st.capacity - 1) = (idx + 1) % cap := by
      rw [hcapeq]
      exact hmask _
    by_cases hocc : (st.slots.getD idx default).flag = .occupied
    · -- occupied slot: swap or continue (the fresh key never matches)
      have hkne : (st.slots.getD idx default).key ≠ nk := hfresh idx hidxcap hocc
      have hcd : (idx + st.capacity -
          (mix32 (st.slots.getD idx default).key &&& (st.capacity - 1))) &&&
            (st.capacity - 1) = distAt st idx := by
        unfold distAt pd homeOf slotAt
        simp only [hcapeq, hmask]
      have hcurlt : distAt st idx < cap := by
        unfold distAt
        rw [hcapeq]
        exact pd_lt hcap _ _
      obtain ⟨t0, ht0f, ht0⟩ := hfront
      have ht0pos : t0 ≠ 0 := by
        intro h0
        rw [h0, Nat.add_zero, Nat.mod_eq_of_lt hidxcap] at ht0
        exact ht0 hocc
      have hfrontslot : ∃ j, j < cap ∧ ¬occAt st j :=
        ⟨(idx + t0) % cap, Nat.mod_lt _ hcap, ht0⟩
      have hfrontpos : ((idx + 1) % cap + (t0 - 1)) % cap = (idx + t0) % cap := by
        rw [Nat.mod_add_mod]
        congr 1
        omega
      have hfrontne : (idx + t0) % cap ≠ idx := by
        intro he
        rw [he] at ht0
        exact ht0 hocc
      by_cases hswap0 : (idx + st.capacity -
          (mix32 (st.slots.getD idx default).key &&& (st.capacity - 1))) &&&
            (st.capacity - 1) < dist
      · -- Robin-Hood swap
        rw [saveLoop_succ, if_neg (by simpa using hocc), if_pos hswap0, hcd, hm1]
        obtain ⟨hcap1, hlen1, hsize1, hcount1, nd1, ch1, hocc1ne, hfresh1,
          hwalk1, hpos1, hdist1, hmodel_ck, hmodel1_other, hmodel1_nk,
          hclean1, hnp1⟩ :=
          saveSwap_spec hcap hcapeq hlen nd ch hfresh hwalk hpos hdist hocc
            (hcd ▸ hswap0) hfrontslot rfl
        have ihr := ih
          { st with slots := st.slots.set idx ⟨.occupied, nk, nv⟩ }
          (st.slots.getD idx default).key (st.slots.getD idx default).val
          (distAt st idx + 1) ((idx + 1) % cap)
          hcap1 hlen1 nd1 ch1 hfresh1 hwalk1 hpos1 hdist1
          (⟨t0 - 1, by omega, by
            rw [hfrontpos]
            intro ho
            exact ht0 ((hocc1ne _ hfrontne).mp ho)⟩)
        obtain ⟨ihcap, ihlen, ihsize, ihcount, ihnd, ihch, ihmodel, ihclean,
          ihnp⟩ := ihr
        refine ⟨ihcap, ihlen, by rw [ihsize, hsize1], by rw [ihcount, hcount1],
          ihnd, ihch, ?_, ?_, ?_⟩
        · intro q
          rw [ihmodel q]
          by_cases hq1 : q = (st.slots.getD idx default).key
          · rw [if_pos hq1, if_neg (by rw [hq1]; exact hkne), hq1]
            exact hmodel_ck.symm
          · rw [if_neg hq1]
            by_cases hq2 : q = nk
            · rw [if_pos hq2, hq2]
              exact hmodel1_nk
            · rw [if_neg hq2]
              exact hmodel1_other q hq2 hq1
        · intro hclean
          exact ihclean (hclean1 hclean)
        · intro hclean hnp hcnp
          obtain ⟨hnp1a, hnp1b⟩ := hnp1 hclean hnp hcnp
          exact ihnp (hclean1 hclean) hnp1a hnp1b
      · -- continue probing (no swap, no key match)
        rw [saveLoop_succ, if_neg (by simpa using hocc), if_neg hswap0,
          if_neg hkne, hm1]
        have hge : dist ≤ distAt st idx := by
          rw [← hcd]
          omega
        have ihr := ih st nk nv (dist + 1) ((idx + 1) % cap) hcapeq hlen nd ch
          hfresh
          (by
            intro t ht
            rcases Nat.lt_or_ge t dist with hlt | hge2
            · exact hwalk t hlt
            · have hte : t = dist := by omega
              rw [hte, ← hpos]
              rw [show (slotAt st idx).flag = Flag.occupied from hocc]
              simp)
          (by rw [probePos_succ, ← hpos]) (by omega)
          (by
            refine ⟨t0 - 1, by omega, ?_⟩
            rw [hfrontpos]
            exact ht0)
        obtain ⟨icap, ilen, isize, icount, ind, ich, imodel, iclean, inp⟩ := ihr
        refine ⟨icap, ilen, isize, icount, ind, ich, imodel, iclean, ?_⟩
        intro hclean hnp hcnp
        refine inp hclean hnp ?_
        intro t ht
        rcases Nat.lt_or_ge t dist with hlt | hge2
        · exact hcnp t hlt
        · have hte : t = dist := by omega
          subst hte
          rw [← hpos]
          exact hge
    · -- non-occupied slot: place the carried entry here
      rw [saveLoop_succ,
        if_pos (show (st.slots.getD idx default).flag ≠ .occupied from hocc)]
      exact savePlace_spec hcap hcapeq hlen nd ch hfresh hwalk hpos hdist
        hocc rfl

/-- Overwriting only the value of slot `p` (flag and key unchanged)
preserves every invariant and updates the abstraction at that key. -/
theorem val_update_spec {st st1 : Storage} {p : Nat} {nv : List Nat}
    (hplen : p < st.slots.length) (hocc : occAt st p)
    (hs1 : st1 = { st with
      slots := st.slots.set p ⟨.occupied, (slotAt st p).key, nv⟩ }) :
    st1.capacity = st.capacity ∧ st1.slots.length = st.slots.length ∧
    st1.size = st.size ∧ countOcc st1 = countOcc st ∧
    (NoDupKeys st → NoDupKeys st1) ∧ (ChainNE st → ChainNE st1) ∧
    (Clean st → Clean st1) ∧ (NoPass st → NoPass st1) ∧
    (NoDupKeys st →
      ∀ q, model st1 q =
        if q = (slotAt st p).key then some nv else model st q) := by
  have hcap1 : st1.capacity = st.capacity := by rw [hs1]
  have hsize1 : st1.size = st.size := by rw [hs1]
  have hlen1 : st1.slots.length = st.slots.length := by
    rw [hs1]
    simp [List.length_set]
  have h1ne : ∀ j, j ≠ p → slotAt st1 j = slotAt st j := by
    intro j hj
    rw [hs1]
    exact getD_set_ne (fun he => hj he.symm) _
  have h1p : slotAt st1 p = ⟨.occupied, (slotAt st p).key, nv⟩ := by
    rw [hs1]
    exact getD_set_self hplen _
  have hflagkey : ∀ j, (slotAt st1 j).flag = (slotAt st j).flag ∧
      (slotAt st1 j).key = (slotAt st j).key := by
    intro j
    by_cases hj : j = p
    · subst hj
      rw [h1p]
      exact ⟨hocc.symm, rfl⟩
    · rw [h1ne j hj]
      exact ⟨rfl, rfl⟩
  have hocc1 : ∀ j, occAt st1 j ↔ occAt st j := by
    intro j
    unfold occAt
    rw [(hflagkey j).1]
  have hdist1 : ∀ j, distAt st1 j = distAt st j := by
    intro j
    unfold distAt
    rw [(hflagkey j).2, hcap1]
  have hcount1 : countOcc st1 = countOcc st := by
    have htrue : ((st.slots.getD p default).flag == Flag.occupied) = true := by
      simp only [beq_iff_eq]
      exact hocc
    have hc := countP_set (fun s => s.flag == Flag.occupied) st.slots p
      ⟨.occupied, (slotAt st p).key, nv⟩ hplen
    simp only [htrue] at hc
    norm_num at hc
    unfold countOcc
    rw [hs1]
    simpa using hc
  refine ⟨hcap1, hlen1, hsize1, hcount1, ?_, ?_, ?_, ?_, ?_⟩
  · intro nd i hi j hj hoi hoj hk
    rw [hlen1] at hi hj
    rw [(hflagkey i).2, (hflagkey j).2] at hk
    exact nd i hi j hj ((hocc1 i).mp hoi) ((hocc1 j).mp hoj) hk
  · intro ch i hi hoi t ht
    rw [hlen1] at hi
    rw [hcap1, (hflagkey i).2]
    rw [hdist1 i] at ht
    rw [(hflagkey (probePos st.capacity (homeOf st.capacity
      (slotAt st i).key) t)).1]
    exact ch i hi ((hocc1 i).mp hoi) t ht
  · intro hclean i hi
    rw [hlen1] at hi
    rw [(hflagkey i).1]
    exact hclean i hi
  · intro hnp i hi hoi t ht
    rw [hlen1] at hi
    rw [hcap1, (hflagkey i).2]
    rw [hdist1 i] at ht
    have := hnp i hi ((hocc1 i).mp hoi) t ht
    constructor
    · rw [occAt, (hflagkey (probePos st.capacity (homeOf st.capacity
        (slotAt st i).key) t)).1]
      exact this.1
    · rw [hdist1]
      exact this.2
  · intro nd q
    by_cases hq : q = (slotAt st p).key
    · rw [if_pos hq, hq]
      have nd1 : NoDupKeys st1 := by
        intro i hi j hj hoi hoj hk
        rw [hlen1] at hi hj
        rw [(hflagkey i).2, (hflagkey j).2] at hk
        exact nd i hi j hj ((hocc1 i).mp hoi) ((hocc1 j).mp hoj) hk
      have := model_eq_some_of nd1 (show p < st1.slots.length by omega)
        ((hocc1 p).mpr hocc) (by rw [h1p])
      rw [this, h1p]
    · rw [if_neg hq, hs1, model, model]
      rw [find?_set_congr st.slots p _
        (by
          simp only [Bool.and_eq_false_iff, beq_eq_false_iff_ne]
          right
          exact fun h => hq h.symm)
        (by
          simp only [Bool.and_eq_false_iff, beq_eq_false_iff_ne]
          right
          exact fun h => hq h.symm)]

/-- On a clean store obeying the Robin-Hood ordering, the probing loop for
a key already in the table walks straight to that key's slot and
overwrites its value in place (no swap can fire on the way). -/
theorem saveLoop_update {cap : Nat} (hcap : 0 < cap) (hpow : ∃ m, cap = 2 ^ m)
    {st : Storage} (hcapeq : st.capacity = cap) (hlen : st.slots.length = cap)
    (nd : NoDupKeys st) (hnp : NoPass st)
    {p k : Nat} (hplen : p < st.slots.length) (hocc : occAt st p)
    (hkey : (slotAt st p).key = k) (nv : List Nat) :
    ∀ r t fuel, t + r = distAt st p → r < fuel →
      saveLoop fuel st k nv t (probePos cap (homeOf cap k) t) =
        { st with slots := st.slots.set p ⟨.occupied, (slotAt st p).key, nv⟩ } := by
  have hmask : ∀ x : Nat, x &&& (cap - 1) = x % cap := by
    intro x
    obtain ⟨m, hm⟩ := hpow
    rw [hm, Nat.and_pow_two_sub_one_eq_mod]
  have hhome : homeOf cap k < cap := Nat.mod_lt _ hcap
  have hpcap : p < cap := hlen ▸ hplen
  have hdp : distAt st p = pd cap (homeOf cap k) p := by
    unfold distAt
    rw [hkey, hcapeq]
  have hdplt : distAt st p < cap := by
    rw [hdp]
    exact pd_lt hcap _ _
  intro r
  induction r with
  | zero =>
    intro t fuel ht hfuel
    obtain ⟨fuel, rfl⟩ : ∃ f, fuel = f + 1 := ⟨fuel - 1, by omega⟩
    have hte : t = distAt st p := by omega
    have hpose : probePos cap (homeOf cap k) t = p := by
      rw [hte, hdp]
      exact probePos_pd hhome hpcap
    rw [hpose, saveLoop_succ]
    rw [if_neg (by
      simp only [ne_eq, not_not]
      exact hocc)]
    have hcd : (p + st.capacity -
        (mix32 (st.slots.getD p default).key &&& (st.capacity - 1))) &&&
          (st.capacity - 1) = distAt st p := by
      unfold distAt pd homeOf slotAt
      simp only [hcapeq, hmask]
    rw [hcd]
    rw [if_neg (by omega)]
    rw [if_pos (show (st.slots.getD p default).key = k from hkey)]
    rfl
  | succ r ih =>
    intro t fuel ht hfuel
    obtain ⟨fuel, rfl⟩ : ∃ f, fuel = f + 1 := ⟨fuel - 1, by omega⟩
    have htlt : t < distAt st p := by omega
    have hnpt := hnp p hplen hocc t htlt
    rw [hkey, hcapeq] at hnpt
    obtain ⟨hoccj, hdistj⟩ := hnpt
    have hj := probePos cap (homeOf cap k) t
    have hjlt : probePos cap (homeOf cap k) t < cap := probePos_lt hcap _ _
    have hjne : probePos cap (homeOf cap k) t ≠ p := by
      intro he
      have : probePos cap (homeOf cap k) t
          = probePos cap (homeOf cap k) (distAt st p) := by
        rw [he, hdp]
        exact (probePos_pd hhome hpcap).symm
      have := probePos_inj hhome (by omega) hdplt this
      omega
    have hkeyne : (st.slots.getD (probePos cap (homeOf cap k) t) default).key
        ≠ k := by
      intro hk
      exact hjne (nd _ (by omega) p hplen hoccj hocc (by
        rw [show (slotAt st (probePos cap (homeOf cap k) t)).key
          = (st.slots.getD (probePos cap (homeOf cap k) t) default).key from rfl,
          hk, hkey]))
    rw [saveLoop_succ]
    rw [if_neg (by
      simp only [ne_eq, not_not]
      exact hoccj)]
    have hcd : (probePos cap (homeOf cap k) t + st.capacity -
        (mix32 (st.slots.getD (probePos cap (homeOf cap k) t) default).key &&&
          (st.capacity - 1))) &&& (st.capacity - 1)
        = distAt st (probePos cap (homeOf cap k) t) := by
      unfold distAt pd homeOf slotAt
      simp only [hcapeq, hmask]
    rw [hcd]
    rw [if_neg (by omega)]
    rw [if_neg hkeyne]
    have hm1 : (probePos cap (homeOf cap k) t + 1) &&& (st.capacity - 1)
        = probePos cap (homeOf cap k) (t + 1) := by
      rw [hcapeq, hmask, probePos_succ]
    rw [hm1]
    exact ih (t + 1) fuel (by omega) (by omega)

/-! ## Rehash: folding the old table into a fresh, doubled one -/

theorem model_eq_modelL (st : Storage) (k : Nat) :
    model st k = modelL st.slots k := rfl

theorem countOcc_eq_countOccL (st : Storage) :
    countOcc st = countOccL st.slots := rfl

/-- A table with fewer occupied slots than slots has a non-occupied slot. -/
theorem exists_nonOcc {st : Storage} (h : countOcc st < st.slots.length) :
    ∃ j, j < st.slots.length ∧ ¬occAt st j := by
  by_contra hall
  push_neg at hall
  have : countOcc st = st.slots.length := by
    rw [countOcc]
    rw [List.countP_eq_length]
    intro a ha
    obtain ⟨i, hi, hia⟩ := List.mem_iff_getElem.mp ha
    have := hall i hi
    rw [occAt, slotAt, getD_eq_getElem hi, hia] at this
    simpa using this
  omega

/-- With the grow check failing, `storage_save` is just the probing loop. -/
theorem storage_saveD_succ_no_grow {d : Nat} {st : Storage}
    (h : ¬10 * (st.size + 1) > 7 * st.capacity) (id : Nat) (v : List Nat) :
    storage_saveD (d + 1) st id v =
      saveLoop st.capacity st id v 0 (mix32 id &&& (st.capacity - 1)) := by
  simp only [storage_saveD, if_neg h]

/-- With the grow check firing, `storage_save` rehashes and then probes the
doubled table. -/
theorem storage_saveD_succ_grow {d : Nat} {st : Storage}
    (h : 10 * (st.size + 1) > 7 * st.capacity) (id : Nat) (v : List Nat) :
    storage_saveD (d + 1) st id v =
      saveLoop (storage_rehashD d st).capacity (storage_rehashD d st) id v 0
        (mix32 id &&& ((storage_rehashD d st).capacity - 1)) := by
  simp only [storage_saveD, storage_rehashD, if_pos h]

/-- Folding a slot list with pairwise-distinct occupied keys, all absent
from a clean well-formed accumulator with enough headroom, inserts exactly
the occupied entries: the result remains clean and well-formed, grows by
`countOccL l`, and its abstraction is the accumulator's overridden by the
list's entries.  (The inner saves never re-trigger the grow check, so the
recursion depth `d + 1` is never exhausted.) -/
theorem rehashFold_spec {C : Nat} (hC : 0 < C) (hpowC : ∃ m, C = 2 ^ m)
    (d : Nat) :
    ∀ (l : List Slot) (acc : Storage),
      acc.capacity = C →
      acc.slots.length = C →
      acc.size = countOcc acc →
      NoDupKeys acc → ChainNE acc → Clean acc → NoPass acc →
      10 * (acc.size + countOccL l) ≤ 7 * C →
      l.Pairwise (fun a b => a.flag = .occupied → b.flag = .occupied →
        a.key ≠ b.key) →
      (∀ s, s ∈ l → s.flag = .occupied → model acc s.key = none) →
      (l.foldl (fun acc s => if s.flag = .occupied then
          storage_saveD (d + 1) acc s.key s.val else acc) acc).capacity = C ∧
      (l.foldl (fun acc s => if s.flag = .occupied then
          storage_saveD (d + 1) acc s.key s.val else acc) acc).slots.length = C ∧
      (l.foldl (fun acc s => if s.flag = .occupied then
          storage_saveD (d + 1) acc s.key s.val else acc) acc).size
        = acc.size + countOccL l ∧
      (l.foldl (fun acc s => if s.flag = .occupied then
          storage_saveD (d + 1) acc s.key s.val else acc) acc).size
        = countOcc (l.foldl (fun acc s => if s.flag = .occupied then
          storage_saveD (d + 1) acc s.key s.val else acc) acc) ∧
      NoDupKeys (l.foldl (fun acc s => if s.flag = .occupied then
          storage_saveD (d + 1) acc s.key s.val else acc) acc) ∧
      ChainNE (l.foldl (fun acc s => if s.flag = .occupied then
          storage_saveD (d + 1) acc s.key s.val else acc) acc) ∧
      Clean (l.foldl (fun acc s => if s.flag = .occupied then
          storage_saveD (d + 1) acc s.key s.val else acc) acc) ∧
      NoPass (l.foldl (fun acc s => if s.flag = .occupied then
          storage_saveD (d + 1) acc s.key s.val else acc) acc) ∧
      (∀ q, model (l.foldl (fun acc s => if s.flag = .occupied then
          storage_saveD (d + 1) acc s.key s.val else acc) acc) q =
        match modelL l q with
        | some v => some v
        | none => model acc q) := by
  intro l
  induction l with
  | nil =>
    intro acc hcap hlen hsz nd ch hclean hnp hload hpw hfresh
    simp only [List.foldl_nil]
    refine ⟨hcap, hlen, ?_, hsz, nd, ch, hclean, hnp, ?_⟩
    · rw [show countOccL [] = 0 from rfl]
      omega
    · intro q
      rw [show modelL [] q = none from rfl]
  | cons s0 rest ihl =>
    intro acc hcap hlen hsz nd ch hclean hnp hload hpw hfresh
    rw [List.pairwise_cons] at hpw
    obtain ⟨hpw0, hpwrest⟩ := hpw
    by_cases hocc0 : s0.flag = .occupied
    · -- insert s0, then continue
      have hcount0 : countOccL (s0 :: rest) = countOccL rest + 1 := by
        rw [countOccL, countOccL, List.countP_cons]
        simp [hocc0]
      -- the inner save does not grow
      have hnogrow : ¬10 * (acc.size + 1) > 7 * acc.capacity := by
        rw [hcap]
        omega
      have hstep : (if s0.flag = .occupied then
          storage_saveD (d + 1) acc s0.key s0.val else acc)
          = saveLoop acc.capacity acc s0.key s0.val 0
            (mix32 s0.key &&& (acc.capacity - 1)) := by
        rw [if_pos hocc0]
        exact storage_saveD_succ_no_grow hnogrow _ _
      have hmask : ∀ x : Nat, x &&& (C - 1) = x % C := by
        intro x
        obtain ⟨m, hm⟩ := hpowC
        rw [hm, Nat.and_pow_two_sub_one_eq_mod]
      have hhome0 : homeOf C s0.key < C := Nat.mod_lt _ hC
      have hidx0 : mix32 s0.key &&& (acc.capacity - 1)
          = probePos C (homeOf C s0.key) 0 := by
        rw [hcap, hmask, probePos_zero _ hhome0]
        rfl
      have hfr : ∃ t, t < acc.capacity ∧
          ¬occAt acc (((mix32 s0.key &&& (acc.capacity - 1)) + t) % C) := by
        have hcnt : countOcc acc < acc.slots.length := by omega
        obtain ⟨j, hj, hnoj⟩ := exists_nonOcc hcnt
        have hjC : j < C := by omega
        have hidxC : mix32 s0.key &&& (acc.capacity - 1) < C := by
          rw [hidx0]
          exact probePos_lt hC _ _
        refine ⟨pd C (mix32 s0.key &&& (acc.capacity - 1)) j, ?_, ?_⟩
        · rw [hcap]
          exact pd_lt hC _ _
        · have hpp := probePos_pd hidxC hjC
          unfold probePos at hpp
          rw [hpp]
          exact hnoj
      have hins := saveLoop_insert hC hpowC acc.capacity acc s0.key s0.val 0
        (mix32 s0.key &&& (acc.capacity - 1)) hcap hlen nd ch
        (by
          intro i hi hoi hk
          have := hfresh s0 (List.mem_cons_self s0 rest) hocc0
          exact absurd this (model_isSome_of nd (by omega) hoi hk))
        (fun t ht => absurd ht (Nat.not_lt_zero t))
        hidx0 (by omega)
        (by
          obtain ⟨t, htlt, hno⟩ := hfr
          exact ⟨t, by omega, hno⟩)
      obtain ⟨icap, ilen, isize, icount, ind, ich, imodel, iclean, inp⟩ := hins
      rw [List.foldl_cons, hstep]
      have hstepclean := iclean hclean
      have hstepnp := inp hclean hnp (by omega)
      have ihr := ihl (saveLoop acc.capacity acc s0.key s0.val 0
          (mix32 s0.key &&& (acc.capacity - 1)))
        icap ilen (by omega) ind ich hstepclean hstepnp
        (by
          rw [isize]
          omega)
        hpwrest
        (by
          intro s hs hso
          rw [imodel s.key]
          rw [if_neg (by
            intro hk
            exact hpw0 s hs hocc0 hso hk.symm)]
          exact hfresh s (List.mem_cons_of_mem s0 hs) hso)
      obtain ⟨rcap, rlen, rsize, rcount, rnd, rch, rclean, rnp, rmodel⟩ := ihr
      refine ⟨rcap, rlen, ?_, rcount, rnd, rch, rclean, rnp, ?_⟩
      · rw [rsize, isize, hcount0]
        omega
      · intro q
        rw [rmodel q]
        by_cases hq : q = s0.key
        · have hml : modelL (s0 :: rest) q = some s0.val := by
            rw [modelL, List.find?_cons_of_pos]
            · rfl
            · simp [hocc0, hq]
          rw [hml]
          have hmlrest : modelL rest q = none := by
            rw [modelL, Option.map_eq_none', List.find?_eq_none]
            intro s hs hpred
            simp only [Bool.and_eq_true, beq_iff_eq] at hpred
            exact hpw0 s hs hocc0 hpred.1 (by rw [hq] at hpred; exact hpred.2.symm)
          rw [hmlrest]
          rw [imodel q, if_pos hq]
        · have hml : modelL (s0 :: rest) q = modelL rest q := by
            rw [modelL, modelL, List.find?_cons_of_neg]
            simp only [Bool.and_eq_true, beq_iff_eq, not_and]
            intro _
            exact fun h => hq h.symm
          rw [hml]
          rcases hmr : modelL rest q with _ | v
          · rw [imodel q, if_neg hq]
          · rfl
    · -- skip a non-occupied slot
      have hcount0 : countOccL (s0 :: rest) = countOccL rest := by
        rw [countOccL, countOccL, List.countP_cons]
        simp [hocc0]
      rw [List.foldl_cons, if_neg hocc0]
      have ihr := ihl acc hcap hlen hsz nd ch hclean hnp
        (by omega) hpwrest
        (fun s hs hso => hfresh s (List.mem_cons_of_mem s0 hs) hso)
      obtain ⟨rcap, rlen, rsize, rcount, rnd, rch, rclean, rnp, rmodel⟩ := ihr
      refine ⟨rcap, rlen, by omega, rcount, rnd, rch, rclean, rnp, ?_⟩
      intro q
      rw [rmodel q]
      have hml : modelL (s0 :: rest) q = modelL rest q := by
        rw [modelL, modelL, List.find?_cons_of_neg]
        simp [hocc0]
      rw [hml]

/-- The fresh table allocated by `storage_rehash` (storage.c:50-55):
`calloc` zeroes the flag array, so every slot is empty and nothing is
represented. -/
theorem freshTable_spec {C : Nat} {acc : Storage}
    (hacc : acc = { capacity := C, size := 0,
                    slots := List.replicate C default }) :
    acc.capacity = C ∧ acc.slots.length = C ∧ acc.size = 0 ∧
    countOcc acc = 0 ∧ NoDupKeys acc ∧ ChainNE acc ∧ Clean acc ∧
    NoPass acc ∧ ∀ q, model acc q = none := by
  have hslot : ∀ i, slotAt acc i = default := by
    intro i
    rw [hacc]
    show (List.replicate C default).getD i default = default
    rw [List.getD_eq_getElem?_getD, List.getElem?_replicate]
    split <;> rfl
  have hnocc : ∀ i, ¬occAt acc i := by
    intro i h
    rw [occAt, hslot i] at h
    exact absurd h (by decide)
  refine ⟨by rw [hacc], by rw [hacc]; simp, by rw [hacc], ?_, ?_, ?_, ?_, ?_, ?_⟩
  · rw [countOcc, List.countP_eq_zero]
    intro a ha
    rw [hacc] at ha
    rw [List.eq_of_mem_replicate ha]
    decide
  · intro i _ j hj hoi _ _
    exact absurd hoi (hnocc i)
  · intro i _ hoi t _
    exact absurd hoi (hnocc i)
  · intro i _
    rw [hslot i]
    decide
  · intro i _ hoi t _
    exact absurd hoi (hnocc i)
  · intro q
    have hfind : acc.slots.find?
        (fun s => s.flag == Flag.occupied && s.key == q) = none := by
      rw [List.find?_eq_none]
      intro a ha hpa
      rw [hacc] at ha
      rw [List.eq_of_mem_replicate ha] at hpa
      simp only [Bool.and_eq_true, beq_iff_eq] at hpa
      exact absurd hpa.1 (by decide)
    unfold model
    rw [hfind]
    rfl

/-- `NoDupKeys` restated as pairwise key-distinctness of the occupied
entries in the raw slot list (the shape the rehash fold consumes). -/
theorem noDup_pairwise {st : Storage} (nd : NoDupKeys st) :
    st.slots.Pairwise (fun a b => a.flag = .occupied → b.flag = .occupied →
      a.key ≠ b.key) := by
  rw [List.pairwise_iff_getElem]
  intro i j hi hj hij ha hb hk
  have hsi : slotAt st i = st.slots[i] := getD_eq_getElem hi
  have hsj : slotAt st j = st.slots[j] := getD_eq_getElem hj
  have := nd i hi j hj (by rw [occAt, hsi]; exact ha)
    (by rw [occAt, hsj]; exact hb) (by rw [hsi, hsj]; exact hk)
  omega

/-- `storage_rehash` (storage.c:43-68): the table doubles, every live
entry survives, no tombstone survives, and the represented mapping is
unchanged. -/
theorem storage_rehashD_spec {st : Storage} (d : Nat)
    (hpow : CapPow2 st) (hge : CapGE st) (hsz : SizeOK st)
    (hload : LoadOK st) (nd : NoDupKeys st) :
    (storage_rehashD (d + 1) st).capacity = 2 * st.capacity ∧
    (storage_rehashD (d + 1) st).slots.length = 2 * st.capacity ∧
    (storage_rehashD (d + 1) st).size = st.size ∧
    (storage_rehashD (d + 1) st).size = countOcc (storage_rehashD (d + 1) st) ∧
    NoDupKeys (storage_rehashD (d + 1) st) ∧
    ChainNE (storage_rehashD (d + 1) st) ∧
    Clean (storage_rehashD (d + 1) st) ∧
    NoPass (storage_rehashD (d + 1) st) ∧
    (∀ q, model (storage_rehashD (d + 1) st) q = model st q) := by
  have hc : 0 < st.capacity := by
    unfold CapGE at hge
    omega
  have hC : 0 < 2 * st.capacity := by omega
  have hCpow : ∃ m, 2 * st.capacity = 2 ^ m := by
    obtain ⟨m, -, hm⟩ := hpow
    exact ⟨m + 1, by rw [hm]; ring⟩
  have hfreshT := freshTable_spec (C := 2 * st.capacity) rfl
  obtain ⟨fcap, flen, fsize, fcount, fnd, fch, fclean, fnp, fmodel⟩ := hfreshT
  have hfold := rehashFold_spec hC hCpow d st.slots
    { capacity := 2 * st.capacity, size := 0,
      slots := List.replicate (2 * st.capacity) default }
    fcap flen (by rw [fsize, fcount]) fnd fch fclean fnp
    (by
      rw [fsize, ← countOcc_eq_countOccL]
      unfold SizeOK at hsz
      unfold LoadOK at hload
      omega)
    (noDup_pairwise nd)
    (fun s _ _ => fmodel s.key)
  obtain ⟨gcap, glen, gsize, gsz2, gnd, gch, gclean, gnp, gmodel⟩ := hfold
  have heq : storage_rehashD (d + 1) st
      = st.slots.foldl (fun acc s => if s.flag = .occupied then
          storage_saveD (d + 1) acc s.key s.val else acc)
        { capacity := 2 * st.capacity, size := 0,
          slots := List.replicate (2 * st.capacity) default } := rfl
  rw [heq]
  refine ⟨gcap, glen, ?_, gsz2, gnd, gch, gclean, gnp, ?_⟩
  · rw [gsize, fsize, ← countOcc_eq_countOccL]
    unfold SizeOK at hsz
    omega
  · intro q
    rw [gmodel q, model_eq_modelL st q]
    cases modelL st.slots q with
    | none => exact fmodel q
    | some w => rfl

/-- One full probing pass of `storage_save` (storage.c:94-135, no grow) on
a clean well-formed table with spare room: the key is bound to the new
value, every other binding is kept, and `size` grows exactly when the key
was absent. -/
theorem saveLoop_full_spec {st R : Storage} {id : Nat} {v : List Nat}
    (hR : R = saveLoop st.capacity st id v 0 (mix32 id &&& (st.capacity - 1)))
    (hlen : st.slots.length = st.capacity) (hpow : ∃ m, st.capacity = 2 ^ m)
    (hsz : st.size = countOcc st)
    (nd : NoDupKeys st) (ch : ChainNE st) (hclean : Clean st) (hnp : NoPass st)
    (hroom : countOcc st < st.capacity) :
    R.capacity = st.capacity ∧ R.slots.length = st.capacity ∧
    R.size = (if (model st id).isSome then st.size else st.size + 1) ∧
    R.size = countOcc R ∧
    NoDupKeys R ∧ ChainNE R ∧ Clean R ∧ NoPass R ∧
    (∀ q, model R q = if q = id then some v else model st q) := by
  have hc : 0 < st.capacity := by
    obtain ⟨m, hm⟩ := hpow
    rw [hm]
    exact Nat.pos_pow_of_pos m (by norm_num)
  have hhome : homeOf st.capacity id < st.capacity := Nat.mod_lt _ hc
  have hmask : ∀ x : Nat, x &&& (st.capacity - 1) = x % st.capacity := by
    intro x
    obtain ⟨m, hm⟩ := hpow
    rw [hm, Nat.and_pow_two_sub_one_eq_mod]
  have h0 : mix32 id &&& (st.capacity - 1)
      = probePos st.capacity (homeOf st.capacity id) 0 := by
    rw [hmask, probePos_zero _ hhome]
    rfl
  rcases hm : model st id with _ | w
  · have hfreshk : ∀ i, i < st.capacity → occAt st i →
        (slotAt st i).key ≠ id := by
      intro i hi hoi hk
      exact absurd hm (model_isSome_of nd (by omega) hoi hk)
    have hfront : ∃ t, t < st.capacity ∧
        ¬occAt st (((mix32 id &&& (st.capacity - 1)) + t) % st.capacity) := by
      obtain ⟨j, hj, hnoj⟩ := @exists_nonOcc st (by omega)
      have hjC : j < st.capacity := by omega
      have hidxC : mix32 id &&& (st.capacity - 1) < st.capacity := by
        rw [h0]
        exact probePos_lt hc _ _
      refine ⟨pd st.capacity (mix32 id &&& (st.capacity - 1)) j,
        pd_lt hc _ _, ?_⟩
      have hpp := probePos_pd hidxC hjC
      unfold probePos at hpp
      rw [hpp]
      exact hnoj
    have hins := saveLoop_insert hc hpow st.capacity st id v 0
      (mix32 id &&& (st.capacity - 1)) rfl hlen nd ch hfreshk
      (fun t ht => absurd ht (Nat.not_lt_zero t)) h0 (by omega) hfront
    obtain ⟨icap, ilen, isize, icount, ind, ich, imodel, iclean, inp⟩ := hins
    rw [hR]
    refine ⟨icap, ilen, ?_, by rw [isize, icount, hsz], ind, ich,
      iclean hclean, inp hclean hnp (fun t ht => absurd ht (Nat.not_lt_zero t)),
      imodel⟩
    simpa using isize
  · obtain ⟨p, hplen, hocc, hkey, hval⟩ := model_some_elim hm
    have hdp : distAt st p < st.capacity := by
      unfold distAt
      exact pd_lt hc _ _
    have hupd := saveLoop_update hc hpow rfl hlen nd hnp hplen hocc hkey v
      (distAt st p) 0 st.capacity (by omega) hdp
    rw [h0, hupd] at hR
    have hv := val_update_spec hplen hocc hR
    obtain ⟨vcap, vlen, vsize, vcount, vnd, vch, vclean, vnp, vmodel⟩ := hv
    refine ⟨vcap, by rw [vlen, hlen], ?_, by rw [vsize, vcount, hsz], vnd nd,
      vch ch, vclean hclean, vnp hnp, ?_⟩
    · simpa using vsize
    · intro q
      rw [vmodel nd q, hkey]

/-- `storage_save` (storage.c:71-136) on a clean well-formed store:
well-formedness is preserved, the capacity stays or doubles, `size` grows
exactly on a fresh key, and the represented mapping is updated pointwise. -/
theorem storage_save_WFC {st : Storage} (hw : WFC st) (id : Nat)
    (v : List Nat) :
    WFC (storage_save st id v) ∧
    ((storage_save st id v).capacity = st.capacity ∨
      (storage_save st id v).capacity = 2 * st.capacity) ∧
    (storage_save st id v).size =
      (if (model st id).isSome then st.size else st.size + 1) ∧
    (∀ q, model (storage_save st id v) q =
      if q = id then some v else model st q) := by
  obtain ⟨⟨hlen, hpow, hge, hsz, hload, nd, ch⟩, hclean, hnp⟩ := hw
  by_cases hgrow : 10 * (st.size + 1) > 7 * st.capacity
  · have hre := storage_rehashD_spec 0 hpow hge hsz hload nd
    obtain ⟨rcap, rlen, rsize, rsz2, rnd, rch, rclean, rnp, rmodel⟩ := hre
    have hsave : storage_save st id v
        = saveLoop (storage_rehashD 1 st).capacity (storage_rehashD 1 st) id v 0
          (mix32 id &&& ((storage_rehashD 1 st).capacity - 1)) := by
      rw [storage_save]
      exact storage_saveD_succ_grow hgrow id v
    have hfull := saveLoop_full_spec hsave (by rw [rlen, rcap])
      (by
        obtain ⟨m, -, hm⟩ := hpow
        exact ⟨m + 1, by rw [rcap, hm]; ring⟩)
      rsz2 rnd rch rclean rnp
      (by
        rw [← rsz2, rsize, rcap]
        unfold LoadOK at hload
        unfold CapGE at hge
        omega)
    obtain ⟨fcap, flen, fsize, fsz2, fnd, fch, fclean, fnp, fmodel⟩ := hfull
    refine ⟨⟨⟨?_, ?_, ?_, fsz2, ?_, fnd, fch⟩, fclean, fnp⟩, ?_, ?_, ?_⟩
    · unfold LenOK
      rw [flen, fcap]
    · obtain ⟨m, -, hm⟩ := hpow
      refine ⟨m + 1, ?_, by rw [fcap, rcap, hm]; ring⟩
      have hmlt := Nat.lt_two_pow m
      rw [← hm] at hmlt
      rw [fcap, rcap]
      omega
    · unfold CapGE at hge ⊢
      rw [fcap, rcap]
      omega
    · unfold LoadOK at hload ⊢
      unfold CapGE at hge
      rw [fcap, rcap, fsize, rmodel id, rsize]
      split <;> omega
    · exact Or.inr (fcap.trans rcap)
    · rw [fsize, rmodel id, rsize]
    · intro q
      rw [fmodel q, rmodel q]
  · have hsave : storage_save st id v
        = saveLoop st.capacity st id v 0 (mix32 id &&& (st.capacity - 1)) := by
      rw [storage_save]
      exact storage_saveD_succ_no_grow hgrow id v
    have hpow2 : ∃ m, st.capacity = 2 ^ m := by
      obtain ⟨m, -, hm⟩ := hpow
      exact ⟨m, hm⟩
    have hfull := saveLoop_full_spec hsave hlen hpow2 hsz nd ch hclean hnp
      (by
        unfold SizeOK at hsz
        omega)
    obtain ⟨fcap, flen, fsize, fsz2, fnd, fch, fclean, fnp, fmodel⟩ := hfull
    refine ⟨⟨⟨?_, ?_, ?_, fsz2, ?_, fnd, fch⟩, fclean, fnp⟩, Or.inl fcap,
      fsize, fmodel⟩
    · unfold LenOK
      rw [flen, fcap]
    · unfold CapPow2 at hpow ⊢
      rw [fcap]
      exact hpow
    · unfold CapGE at hge ⊢
      rw [fcap]
      exact hge
    · unfold LoadOK at hload ⊢
      rw [fcap, fsize]
      split <;> omega

/-- `storage_remove` on a present key marks its unique slot deleted and
decrements `size`. -/
theorem storage_remove_hit {st : Storage} (hlen : LenOK st) (hp2 : CapPow2 st)
    (nd : NoDupKeys st) (ch : ChainNE st) {p k : Nat}
    (hplen : p < st.slots.length) (hocc : occAt st p)
    (hkey : (slotAt st p).key = k) :
    storage_remove st k =
      { st with
        slots := st.slots.set p ⟨.deleted, (slotAt st p).key, []⟩
        size := st.size - 1 } := by
  have hc : 0 < st.capacity := by
    obtain ⟨m, -, hm⟩ := hp2
    rw [hm]
    exact Nat.pos_pow_of_pos m (by norm_num)
  have hhome : homeOf st.capacity k < st.capacity := Nat.mod_lt _ hc
  have h0 : mix32 k &&& (st.capacity - 1)
      = probePos st.capacity (homeOf st.capacity k) 0 := by
    rw [and_mask_eq_mod hp2, probePos_zero _ hhome]
    rfl
  rw [storage_remove, h0]
  exact removeLoop_reach hlen hp2 nd ch hplen hocc hkey (distAt st p) 0
    st.capacity (by omega) (pd_lt hc _ _)

/-- Marking an occupied slot deleted (the hit case of `storage_remove`,
storage.c:168-172) keeps every other entry, drops one occupied count, and
erases exactly that key from the represented mapping. -/
theorem del_update_spec {st st1 : Storage} {p : Nat}
    (hplen : p < st.slots.length) (hocc : occAt st p)
    (hs1 : st1 = { st with
      slots := st.slots.set p ⟨.deleted, (slotAt st p).key, []⟩
      size := st.size - 1 }) :
    st1.capacity = st.capacity ∧ st1.slots.length = st.slots.length ∧
    st1.size = st.size - 1 ∧ countOcc st1 + 1 = countOcc st ∧
    (NoDupKeys st → NoDupKeys st1) ∧ (ChainNE st → ChainNE st1) ∧
    (NoDupKeys st →
      ∀ q, model st1 q =
        if q = (slotAt st p).key then none else model st q) := by
  have hcap1 : st1.capacity = st.capacity := by rw [hs1]
  have hsize1 : st1.size = st.size - 1 := by rw [hs1]
  have hlen1 : st1.slots.length = st.slots.length := by
    rw [hs1]
    simp [List.length_set]
  have h1ne : ∀ j, j ≠ p → slotAt st1 j = slotAt st j := by
    intro j hj
    rw [hs1]
    exact getD_set_ne (fun he => hj he.symm) _
  have h1p : slotAt st1 p = ⟨.deleted, (slotAt st p).key, []⟩ := by
    rw [hs1]
    exact getD_set_self hplen _
  have hkeys : ∀ j, (slotAt st1 j).key = (slotAt st j).key := by
    intro j
    by_cases hj : j = p
    · subst hj
      rw [h1p]
    · rw [h1ne j hj]
  have hocc1 : ∀ j, occAt st1 j ↔ occAt st j ∧ j ≠ p := by
    intro j
    by_cases hj : j = p
    · subst hj
      unfold occAt
      rw [h1p]
      simp
    · unfold occAt
      rw [h1ne j hj]
      simp [hj]
  have hdist1 : ∀ j, distAt st1 j = distAt st j := by
    intro j
    unfold distAt
    rw [hkeys j, hcap1]
  refine ⟨hcap1, hlen1, hsize1, ?_, ?_, ?_, ?_⟩
  · have hset := countP_set (fun s => s.flag == Flag.occupied) st.slots p
      ⟨.deleted, (slotAt st p).key, []⟩ hplen
    have hpt : ((st.slots.getD p default).flag == Flag.occupied) = true := by
      simp only [beq_iff_eq]
      exact hocc
    have hpf : ((Slot.mk .deleted (slotAt st p).key []).flag
        == Flag.occupied) = false := rfl
    simp only [hpt, hpf] at hset
    simp at hset
    have hc1 : countOcc st1
        = (st.slots.set p ⟨.deleted, (slotAt st p).key, []⟩).countP
          (fun s => s.flag == Flag.occupied) := by
      rw [countOcc, hs1]
    have hc0 : countOcc st
        = st.slots.countP (fun s => s.flag == Flag.occupied) := rfl
    omega
  · intro nd i hi j hj hoi hoj hk
    rw [hlen1] at hi hj
    rw [hocc1] at hoi hoj
    rw [hkeys i, hkeys j] at hk
    exact nd i hi j hj hoi.1 hoj.1 hk
  · intro ch i hi hoi t ht
    rw [hlen1] at hi
    rw [hocc1] at hoi
    rw [hdist1 i] at ht
    rw [hkeys i, hcap1]
    have hch := ch i hi hoi.1 t ht
    by_cases hr : probePos st.capacity
        (homeOf st.capacity (slotAt st i).key) t = p
    · rw [hr, h1p]
      exact (by decide : Flag.deleted ≠ Flag.empty)
    · rw [h1ne _ hr]
      exact hch
  · intro nd q
    by_cases hq : q = (slotAt st p).key
    · rw [if_pos hq]
      rw [model_none_iff]
      intro i hi ⟨hoi, hki⟩
      rw [hlen1] at hi
      rw [hocc1] at hoi
      rw [hkeys i] at hki
      exact hoi.2 (nd i hi p hplen hoi.1 hocc (by rw [hki, hq]))
    · rw [if_neg hq]
      have hpred1 : ((st.slots.getD p default).flag == Flag.occupied &&
          (st.slots.getD p default).key == q) = false := by
        have hne : ((st.slots.getD p default).key == q) = false := by
          simp only [beq_eq_false_iff_ne, ne_eq]
          intro he
          exact hq he.symm
        rw [hne, Bool.and_false]
      have hpred2 : ((Slot.mk .deleted (slotAt st p).key []).flag
          == Flag.occupied && (Slot.mk .deleted (slotAt st p).key []).key
            == q) = false := by
        rw [show ((Slot.mk .deleted (slotAt st p).key []).flag
          == Flag.occupied) = false from rfl, Bool.false_and]
      unfold model
      rw [hs1]
      rw [find?_set_congr st.slots p _ hpred1 hpred2]

/-- One probing pass of `storage_save` for a key absent from the table:
valid on tombstoned tables as well, the insert lands without disturbing any
other entry. -/
theorem saveLoop_fresh_spec {st R : Storage} {id : Nat} {v : List Nat}
    (hR : R = saveLoop st.capacity st id v 0 (mix32 id &&& (st.capacity - 1)))
    (hlen : st.slots.length = st.capacity) (hpow : ∃ m, st.capacity = 2 ^ m)
    (nd : NoDupKeys st) (ch : ChainNE st)
    (hm : model st id = none)
    (hroom : countOcc st < st.capacity) :
    R.capacity = st.capacity ∧ R.slots.length = st.capacity ∧
    R.size = st.size + 1 ∧ countOcc R = countOcc st + 1 ∧
    NoDupKeys R ∧ ChainNE R ∧
    (∀ q, model R q = if q = id then some v else model st q) := by
  have hc : 0 < st.capacity := by
    obtain ⟨m, hm2⟩ := hpow
    rw [hm2]
    exact Nat.pos_pow_of_pos m (by norm_num)
  have hhome : homeOf st.capacity id < st.capacity := Nat.mod_lt _ hc
  have hmask : ∀ x : Nat, x &&& (st.capacity - 1) = x % st.capacity := by
    intro x
    obtain ⟨m, hm2⟩ := hpow
    rw [hm2, Nat.and_pow_two_sub_one_eq_mod]
  have h0 : mix32 id &&& (st.capacity - 1)
      = probePos st.capacity (homeOf st.capacity id) 0 := by
    rw [hmask, probePos_zero _ hhome]
    rfl
  have hfreshk : ∀ i, i < st.capacity → occAt st i →
      (slotAt st i).key ≠ id := by
    intro i hi hoi hk
    exact absurd hm (model_isSome_of nd (by omega) hoi hk)
  have hfront : ∃ t, t < st.capacity ∧
      ¬occAt st (((mix32 id &&& (st.capacity - 1)) + t) % st.capacity) := by
    obtain ⟨j, hj, hnoj⟩ := @exists_nonOcc st (by omega)
    have hjC : j < st.capacity := by omega
    have hidxC : mix32 id &&& (st.capacity - 1) < st.capacity := by
      rw [h0]
      exact probePos_lt hc _ _
    refine ⟨pd st.capacity (mix32 id &&& (st.capacity - 1)) j,
      pd_lt hc _ _, ?_⟩
    have hpp := probePos_pd hidxC hjC
    unfold probePos at hpp
    rw [hpp]
    exact hnoj
  have hins := saveLoop_insert hc hpow st.capacity st id v 0
    (mix32 id &&& (st.capacity - 1)) rfl hlen nd ch hfreshk
    (fun t ht => absurd ht (Nat.not_lt_zero t)) h0 (by omega) hfront
  obtain ⟨icap, ilen, isize, icount, ind, ich, imodel, -, -⟩ := hins
  rw [hR]
  exact ⟨icap, ilen, isize, icount, ind, ich, imodel⟩

/-- `storage_save` of an absent key on any well-formed store (tombstones
allowed): well-formedness is preserved, `size` grows by one, and exactly
the new binding is added. -/
theorem storage_save_WF_fresh {st : Storage} (hw : WF st) {id : Nat}
    (v : List Nat) (hm : model st id = none) :
    WF (storage_save st id v) ∧
    ((storage_save st id v).capacity = st.capacity ∨
      (storage_save st id v).capacity = 2 * st.capacity) ∧
    (storage_save st id v).size = st.size + 1 ∧
    (∀ q, model (storage_save st id v) q =
      if q = id then some v else model st q) := by
  obtain ⟨hlen, hpow, hge, hsz, hload, nd, ch⟩ := hw
  by_cases hgrow : 10 * (st.size + 1) > 7 * st.capacity
  · have hre := storage_rehashD_spec 0 hpow hge hsz hload nd
    obtain ⟨rcap, rlen, rsize, rsz2, rnd, rch, rclean, rnp, rmodel⟩ := hre
    have hsave : storage_save st id v
        = saveLoop (storage_rehashD 1 st).capacity (storage_rehashD 1 st) id v 0
          (mix32 id &&& ((storage_rehashD 1 st).capacity - 1)) := by
      rw [storage_save]
      exact storage_saveD_succ_grow hgrow id v
    have hfull := saveLoop_fresh_spec hsave (by rw [rlen, rcap])
      (by
        obtain ⟨m, -, hm2⟩ := hpow
        exact ⟨m + 1, by rw [rcap, hm2]; ring⟩)
      rnd rch (by rw [rmodel id]; exact hm)
      (by
        rw [← rsz2, rsize, rcap]
        unfold LoadOK at hload
        unfold CapGE at hge
        omega)
    obtain ⟨fcap, flen, fsize, fcount, fnd, fch, fmodel⟩ := hfull
    refine ⟨⟨?_, ?_, ?_, ?_, ?_, fnd, fch⟩, Or.inr (fcap.trans rcap), ?_, ?_⟩
    · unfold LenOK
      rw [flen, fcap]
    · obtain ⟨m, -, hm2⟩ := hpow
      refine ⟨m + 1, ?_, by rw [fcap, rcap, hm2]; ring⟩
      have hmlt := Nat.lt_two_pow m
      rw [← hm2] at hmlt
      rw [fcap, rcap]
      omega
    · unfold CapGE at hge ⊢
      rw [fcap, rcap]
      omega
    · unfold SizeOK
      rw [fsize, fcount, ← rsz2, rsize]
    · unfold LoadOK at hload ⊢
      unfold CapGE at hge
      rw [fcap, rcap, fsize, rsize]
      omega
    · rw [fsize, rsize]
    · intro q
      rw [fmodel q, rmodel q]
  · have hsave : storage_save st id v
        = saveLoop st.capacity st id v 0 (mix32 id &&& (st.capacity - 1)) := by
      rw [storage_save]
      exact storage_saveD_succ_no_grow hgrow id v
    have hpow2 : ∃ m, st.capacity = 2 ^ m := by
      obtain ⟨m, -, hm2⟩ := hpow
      exact ⟨m, hm2⟩
    have hfull := saveLoop_fresh_spec hsave hlen hpow2 nd ch hm
      (by
        unfold SizeOK at hsz
        omega)
    obtain ⟨fcap, flen, fsize, fcount, fnd, fch, fmodel⟩ := hfull
    refine ⟨⟨?_, ?_, ?_, ?_, ?_, fnd, fch⟩, Or.inl fcap, fsize, fmodel⟩
    · unfold LenOK
      rw [flen, fcap]
    · unfold CapPow2 at hpow ⊢
      rw [fcap]
      exact hpow
    · unfold CapGE at hge ⊢
      rw [fcap]
      exact hge
    · unfold SizeOK at hsz ⊢
      rw [fsize, fcount]
      omega
    · unfold LoadOK at hload ⊢
      rw [fcap, fsize]
      omega

/-- `storage_remove` (storage.c:159-176) on any well-formed store:
well-formedness is preserved, capacity is untouched, `size` drops exactly
when the key was present, and exactly that binding disappears. -/
theorem storage_remove_WF {st : Storage} (hw : WF st) (id : Nat) :
    WF (storage_remove st id) ∧
    (storage_remove st id).capacity = st.capacity ∧
    (storage_remove st id).size
      = (if (model st id).isSome then st.size - 1 else st.size) ∧
    (∀ q, model (storage_remove st id) q =
      if q = id then none else model st q) := by
  obtain ⟨hlen, hpow, hge, hsz, hload, nd, ch⟩ := hw
  rcases hm : model st id with _ | w
  · have habs : ∀ i, i < st.slots.length →
        ¬(occAt st i ∧ (slotAt st i).key = id) := model_none_iff.mp hm
    rw [storage_remove_of_absent habs]
    refine ⟨⟨hlen, hpow, hge, hsz, hload, nd, ch⟩, rfl, by simp, ?_⟩
    intro q
    by_cases hq : q = id
    · subst hq
      rw [if_pos rfl]
      exact hm
    · rw [if_neg hq]
  · obtain ⟨p, hplen, hocc, hkey, hval⟩ := model_some_elim hm
    have hrem := storage_remove_hit hlen hpow nd ch hplen hocc hkey
    have hd := del_update_spec hplen hocc hrem
    obtain ⟨dcap, dlen, dsize, dcount, dnd, dch, dmodel⟩ := hd
    refine ⟨⟨?_, ?_, ?_, ?_, ?_, dnd nd, dch ch⟩, dcap, ?_, ?_⟩
    · unfold LenOK at hlen ⊢
      rw [dlen, dcap, hlen]
    · unfold CapPow2 at hpow ⊢
      rw [dcap]
      exact hpow
    · unfold CapGE at hge ⊢
      rw [dcap]
      exact hge
    · unfold SizeOK at hsz ⊢
      omega
    · unfold LoadOK at hload ⊢
      rw [dcap]
      omega
    · rw [dsize]
      simp
    · intro q
      rw [dmodel nd q, hkey]

/-- The freshly initialized store is clean and well-formed. -/
theorem storage_init_WFC : WFC storage_init := by decide

/-- Peeling one record off `lastWrite`: a later write wins. -/
theorem lastWrite_cons (r : Nat × List Nat) (rest : List (Nat × List Nat))
    (q : Nat) :
    lastWrite (r :: rest) q =
      match lastWrite rest q with
      | some v => some v
      | none => if r.1 = q then some r.2 else none := by
  unfold lastWrite
  rw [List.filter_cons]
  by_cases hq : r.1 = q
  · rw [if_pos (by simp [hq])]
    cases hfr : (rest.filter fun p => p.1 == q) with
    | nil =>
      simp [hq]
    | cons x xs =>
      rw [List.getLast?_cons_cons]
      cases hgl : (x :: xs).getLast? with
      | none => simp at hgl
      | some y => rfl
  · rw [if_neg (by simp [hq])]
    cases hlw : ((rest.filter fun p => p.1 == q).getLast?).map (·.2) with
    | none => rw [if_neg hq]
    | some v => rfl

/-- Replaying a record list through `storage_save` from a clean
well-formed store: well-formedness is preserved and the represented
mapping is the starting one overridden by each key's last write. -/
theorem replayRecs_WFC :
    ∀ (recs : List (Nat × List Nat)) (st : Storage), WFC st →
      WFC (replayRecs st recs) ∧
      (∀ q, model (replayRecs st recs) q =
        match lastWrite recs q with
        | some v => some v
        | none => model st q) := by
  intro recs
  induction recs with
  | nil =>
    intro st hw
    exact ⟨hw, fun q => rfl⟩
  | cons r rest ih =>
    intro st hw
    obtain ⟨hwfc, -, -, hmodel⟩ := storage_save_WFC hw r.1 r.2
    have hrep : replayRecs st (r :: rest)
        = replayRecs (storage_save st r.1 r.2) rest := rfl
    rw [hrep]
    obtain ⟨ihw, ihm⟩ := ih (storage_save st r.1 r.2) hwfc
    refine ⟨ihw, ?_⟩
    intro q
    rw [ihm q, lastWrite_cons]
    cases hlw : lastWrite rest q with
    | some v => rfl
    | none =>
      rw [hmodel q]
      by_cases hqr : q = r.1
      · rw [if_pos hqr, if_pos (hqr.symm)]
      · rw [if_neg hqr, if_neg (fun he => hqr he.symm)]

/-! ## AOF: parsing, replay and corruption -/

/-- A well-formed record at the head of the byte stream parses off and the
loop continues on the remainder. -/
theorem aofParseLoop_step (fuel : Nat) (idb szb payload crcb tail : List Nat)
    (h1 : idb.length = 4) (h2 : szb.length = 4)
    (h3 : dec32 szb = payload.length) (h4 : crcb.length = 4)
    (h5 : dec32 crcb = crc32c (crc32c (crc32c 0 idb) szb) payload) :
    aofParseLoop (fuel + 1) (idb ++ (szb ++ (payload ++ (crcb ++ tail))))
      = (aofParseLoop fuel tail).map ((dec32 idb, payload) :: ·) := by
  have t1 : (idb ++ (szb ++ (payload ++ (crcb ++ tail)))).take 4 = idb :=
    List.take_left' h1
  have d1 : (idb ++ (szb ++ (payload ++ (crcb ++ tail)))).drop 4
      = szb ++ (payload ++ (crcb ++ tail)) := List.drop_left' h1
  have t2 : (szb ++ (payload ++ (crcb ++ tail))).take 4 = szb :=
    List.take_left' h2
  have d2 : (szb ++ (payload ++ (crcb ++ tail))).drop 4
      = payload ++ (crcb ++ tail) := List.drop_left' h2
  have t3 : (payload ++ (crcb ++ tail)).take (dec32 szb) = payload :=
    List.take_left' h3.symm
  have d3 : (payload ++ (crcb ++ tail)).drop (dec32 szb) = crcb ++ tail :=
    List.drop_left' h3.symm
  have t4 : (crcb ++ tail).take 4 = crcb := List.take_left' h4
  have d4 : (crcb ++ tail).drop 4 = tail := List.drop_left' h4
  simp only [aofParseLoop]
  rw [t1, d1, t2, d2, t3, d3, t4, d4]
  rw [if_neg (by rw [List.length_append, h1]; omega)]
  rw [if_neg (by rw [List.length_append, h2]; omega)]
  rw [if_neg (by rw [List.length_append, h3]; omega)]
  rw [if_neg (by rw [List.length_append, h4]; omega)]
  rw [if_neg (show ¬crc32c (crc32c (crc32c 0 idb) szb) payload ≠ dec32 crcb
    from fun hne => hne h5.symm)]

/-- Replay is parsing followed by a fold of `storage_save` over the parsed
records; the corrupt exits coincide. -/
theorem AOF_load_loop_parse :
    ∀ (fuel : Nat) (bytes : List Nat) (st : Storage),
      AOF_load_loop fuel bytes st =
        match aofParseLoop fuel bytes with
        | some recs => .ok (replayRecs st recs)
        | none => .corrupt := by
  intro fuel
  induction fuel with
  | zero => intro bytes st; rfl
  | succ fuel ih =>
    intro bytes st
    simp only [AOF_load_loop, aofParseLoop]
    by_cases hc1 : bytes.length < 4
    · rw [if_pos hc1, if_pos hc1]
      rfl
    · rw [if_neg hc1, if_neg hc1]
      by_cases hc2 : (bytes.drop 4).length < 4
      · rw [if_pos hc2, if_pos hc2]
      · rw [if_neg hc2, if_neg hc2]
        by_cases hc3 : ((bytes.drop 4).drop 4).length
            < dec32 ((bytes.drop 4).take 4)
        · rw [if_pos hc3, if_pos hc3]
        · rw [if_neg hc3, if_neg hc3]
          by_cases hc4 : (((bytes.drop 4).drop 4).drop
              (dec32 ((bytes.drop 4).take 4))).length < 4
          · rw [if_pos hc4, if_pos hc4]
          · rw [if_neg hc4, if_neg hc4]
            by_cases hc5 : crc32c (crc32c (crc32c 0 (bytes.take 4))
                  ((bytes.drop 4).take 4))
                  (((bytes.drop 4).drop 4).take (dec32 ((bytes.drop 4).take 4)))
                ≠ dec32 ((((bytes.drop 4).drop 4).drop
                  (dec32 ((bytes.drop 4).take 4))).take 4)
            · rw [if_pos hc5, if_pos hc5]
            · rw [if_neg hc5, if_neg hc5]
              rw [ih]
              cases aofParseLoop fuel ((((bytes.drop 4).drop 4).drop
                  (dec32 ((bytes.drop 4).take 4))).drop 4) with
              | none => rfl
              | some recs => rfl

/-- `AOF_load_go` in terms of the pure parse. -/
theorem AOF_load_go_parse (bytes : List Nat) (st : Storage) :
    AOF_load_go bytes st =
      match aofParse bytes with
      | some recs => .ok (replayRecs st recs)
      | none => .corrupt :=
  AOF_load_loop_parse _ _ _

/-- The parse result does not depend on the fuel once the fuel exceeds the
byte count (each iteration consumes at least 12 bytes). -/
theorem aofParseLoop_fuel :
    ∀ (f1 : Nat) (bytes : List Nat) (f2 : Nat),
      bytes.length < f1 → bytes.length < f2 →
      aofParseLoop f1 bytes = aofParseLoop f2 bytes := by
  intro f1
  induction f1 with
  | zero =>
    intro bytes f2 h1 h2
    omega
  | succ f1 ih =>
    intro bytes f2 h1 h2
    obtain ⟨f2, rfl⟩ : ∃ g, f2 = g + 1 := ⟨f2 - 1, by omega⟩
    simp only [aofParseLoop]
    by_cases hc1 : bytes.length < 4
    · rw [if_pos hc1, if_pos hc1]
    · rw [if_neg hc1, if_neg hc1]
      by_cases hc2 : (bytes.drop 4).length < 4
      · rw [if_pos hc2, if_pos hc2]
      · rw [if_neg hc2, if_neg hc2]
        by_cases hc3 : ((bytes.drop 4).drop 4).length
            < dec32 ((bytes.drop 4).take 4)
        · rw [if_pos hc3, if_pos hc3]
        · rw [if_neg hc3, if_neg hc3]
          by_cases hc4 : (((bytes.drop 4).drop 4).drop
              (dec32 ((bytes.drop 4).take 4))).length < 4
          · rw [if_pos hc4, if_pos hc4]
          · rw [if_neg hc4, if_neg hc4]
            by_cases hc5 : crc32c (crc32c (crc32c 0 (bytes.take 4))
                  ((bytes.drop 4).take 4))
                  (((bytes.drop 4).drop 4).take (dec32 ((bytes.drop 4).take 4)))
                ≠ dec32 ((((bytes.drop 4).drop 4).drop
                  (dec32 ((bytes.drop 4).take 4))).take 4)
            · rw [if_pos hc5, if_pos hc5]
            · rw [if_neg hc5, if_neg hc5]
              rw [ih _ f2 (by simp only [List.length_drop]; omega)
                (by simp only [List.length_drop]; omega)]

/-- Parsing a log of well-formed records followed by any remainder yields
those records in front of whatever the remainder parses to. -/
theorem aofParse_file_append :
    ∀ (recs : List (Nat × List Nat)) (tail : List Nat),
      (∀ r ∈ recs, r.1 < 2 ^ 32 ∧ r.2.length < 2 ^ 32) →
      aofParse (aof_file_of recs ++ tail)
        = (aofParse tail).map (recs ++ ·) := by
  intro recs
  induction recs with
  | nil =>
    intro tail h
    rw [show aof_file_of [] ++ tail = tail from by
      rw [show aof_file_of [] = [] from rfl, List.nil_append]]
    cases aofParse tail with
    | none => rfl
    | some l => rfl
  | cons r rest ih =>
    intro tail h
    have hr := h r (List.mem_cons_self r rest)
    have hfile : aof_file_of (r :: rest) ++ tail
        = le32 r.1 ++ (le32 r.2.length ++ (r.2 ++
            (le32 (crc32c (crc32c (crc32c 0 (le32 r.1)) (le32 r.2.length)) r.2)
              ++ (aof_file_of rest ++ tail)))) := by
      show (aof_record_bytes r.1 r.2 ++ aof_file_of rest) ++ tail = _
      unfold aof_record_bytes
      simp [List.append_assoc]
    unfold aofParse
    rw [hfile]
    rw [show (le32 r.1 ++ (le32 r.2.length ++ (r.2 ++
        (le32 (crc32c (crc32c (crc32c 0 (le32 r.1)) (le32 r.2.length)) r.2)
          ++ (aof_file_of rest ++ tail))))).length
      = (12 + r.2.length + (aof_file_of rest ++ tail).length) + 1 - 1 from by
        simp [le32_length]
        omega]
    rw [show (12 + r.2.length + (aof_file_of rest ++ tail).length) + 1 - 1
      = (11 + r.2.length + (aof_file_of rest ++ tail).length) + 1 from by omega]
    rw [aofParseLoop_step _ _ _ _ _ _ (le32_length r.1) (le32_length r.2.length)
      (dec32_le32 hr.2) (le32_length _) (dec32_le32 (crc32c_lt _ _))]
    rw [aofParseLoop_fuel _ _ ((aof_file_of rest ++ tail).length + 1)
      (by omega) (by omega)]
    rw [show aofParseLoop ((aof_file_of rest ++ tail).length + 1)
        (aof_file_of rest ++ tail) = aofParse (aof_file_of rest ++ tail)
      from rfl]
    rw [ih tail (fun s hs => h s (List.mem_cons_of_mem r hs))]
    rw [dec32_le32 hr.1]
    rw [show aofParseLoop (tail.length + 1) tail = aofParse tail from rfl]
    cases aofParse tail with
    | none => rfl
    | some l => rfl

/-- A record whose size field is cut short fails the parse. -/
theorem aofParse_short_size {idb more : List Nat} (h1 : idb.length = 4)
    (hm : more.length < 4) :
    aofParse (idb ++ more) = none := by
  unfold aofParse
  simp only [aofParseLoop]
  rw [List.drop_left' h1]
  rw [if_neg (by rw [List.length_append, h1]; omega)]
  rw [if_pos hm]

/-- A record whose payload is cut short fails the parse. -/
theorem aofParse_short_payload {idb szb rest : List Nat} (h1 : idb.length = 4)
    (h2 : szb.length = 4) (hr : rest.length < dec32 szb) :
    aofParse (idb ++ (szb ++ rest)) = none := by
  unfold aofParse
  simp only [aofParseLoop]
  rw [List.drop_left' h1, List.take_left' h2, List.drop_left' h2]
  rw [if_neg (by rw [List.length_append, h1]; omega)]
  rw [if_neg (by rw [List.length_append, h2]; omega)]
  rw [if_pos hr]

/-- A record whose CRC field is cut short fails the parse. -/
theorem aofParse_short_crc {idb szb payload rest : List Nat}
    (h1 : idb.length = 4) (h2 : szb.length = 4)
    (h3 : dec32 szb = payload.length) (hr : rest.length < 4) :
    aofParse (idb ++ (szb ++ (payload ++ rest))) = none := by
  unfold aofParse
  simp only [aofParseLoop]
  rw [List.drop_left' h1, List.take_left' h2, List.drop_left' h2,
    List.take_left' h3.symm, List.drop_left' h3.symm]
  rw [if_neg (by rw [List.length_append, h1]; omega)]
  rw [if_neg (by rw [List.length_append, h2]; omega)]
  rw [if_neg (by rw [List.length_append, h3]; omega)]
  rw [if_pos hr]

/-- A record whose stored CRC differs from the computed one fails the
parse. -/
theorem aofParse_crc_mismatch {idb szb payload crcb tail : List Nat}
    (h1 : idb.length = 4) (h2 : szb.length = 4)
    (h3 : dec32 szb = payload.length) (h4 : crcb.length = 4)
    (h5 : dec32 crcb ≠ crc32c (crc32c (crc32c 0 idb) szb) payload) :
    aofParse (idb ++ (szb ++ (payload ++ (crcb ++ tail)))) = none := by
  unfold aofParse
  simp only [aofParseLoop]
  rw [List.take_left' h1, List.drop_left' h1, List.take_left' h2,
    List.drop_left' h2, List.take_left' h3.symm, List.drop_left' h3.symm,
    List.take_left' h4]
  rw [if_neg (by rw [List.length_append, h1]; omega)]
  rw [if_neg (by rw [List.length_append, h2]; omega)]
  rw [if_neg (by rw [List.length_append, h3]; omega)]
  rw [if_neg (by rw [List.length_append, h4]; omega)]
  rw [if_pos (show crc32c (crc32c (crc32c 0 idb) szb) payload ≠ dec32 crcb
    from fun he => h5 he.symm)]

/-- A well-formed log prefix followed by bytes that fail to parse drives the
replay to the corrupt exit. -/
theorem AOF_load_append_corrupt {recs : List (Nat × List Nat)}
    {tail : List Nat} (st : Storage)
    (hwf : ∀ r ∈ recs, r.1 < 2 ^ 32 ∧ r.2.length < 2 ^ 32)
    (hbad : aofParse tail = none) :
    AOF_load_go (aof_file_of recs ++ tail) st = .corrupt := by
  rw [AOF_load_go_parse, aofParse_file_append recs tail hwf, hbad]
  rfl

/-! ## RDB: replay and checksum -/

/-- A well-formed record at the head of the remaining bytes is folded into
the CRC and saved, and the loop continues. -/
theorem load_rdb_loop_step (fuel : Nat) (idb szb payload tail : List Nat)
    (crc footer : Nat) (st : Storage)
    (h1 : idb.length = 4) (h2 : szb.length = 8)
    (h3 : dec64 szb = payload.length) (h0 : payload.length ≠ 0) :
    load_rdb_loop (fuel + 1) (idb ++ (szb ++ (payload ++ tail))) crc st footer
      = load_rdb_loop fuel tail
          (crc32c (crc32c (crc32c crc idb) szb) payload)
          (storage_save st (dec32 idb) payload) footer := by
  simp only [load_rdb_loop]
  rw [List.take_left' h1, List.drop_left' h1, List.take_left' h2,
    List.drop_left' h2, List.take_left' h3.symm, List.drop_left' h3.symm]
  rw [if_neg (by simp only [List.length_append, h1, h2]; omega)]
  rw [if_neg (by simp only [List.length_append, h2]; omega)]
  rw [if_neg (by rw [h3]; exact h0)]
  rw [if_neg (by rw [List.length_append, h3]; omega)]

/-- The RDB replay does not depend on the fuel once it exceeds the byte
count (each iteration consumes at least 13 bytes). -/
theorem load_rdb_loop_fuel :
    ∀ (f1 : Nat) (rem : List Nat) (f2 crc footer : Nat) (st : Storage),
      rem.length < f1 → rem.length < f2 →
      load_rdb_loop f1 rem crc st footer
        = load_rdb_loop f2 rem crc st footer := by
  intro f1
  induction f1 with
  | zero =>
    intro rem f2 crc footer st h1 h2
    omega
  | succ f1 ih =>
    intro rem f2 crc footer st h1 h2
    obtain ⟨f2, rfl⟩ : ∃ g, f2 = g + 1 := ⟨f2 - 1, by omega⟩
    simp only [load_rdb_loop]
    by_cases hc1 : rem.length ≤ 4
    · rw [if_pos hc1, if_pos hc1]
    · rw [if_neg hc1, if_neg hc1]
      by_cases hc2 : (rem.drop 4).length < 8
      · rw [if_pos hc2, if_pos hc2]
      · rw [if_neg hc2, if_neg hc2]
        by_cases hc3 : dec64 ((rem.drop 4).take 8) = 0
        · rw [if_pos hc3, if_pos hc3]
        · rw [if_neg hc3, if_neg hc3]
          by_cases hc4 : ((rem.drop 4).drop 8).length
              < dec64 ((rem.drop 4).take 8)
          · rw [if_pos hc4, if_pos hc4]
          · rw [if_neg hc4, if_neg hc4]
            rw [ih _ f2 _ _ _ (by simp only [List.length_drop]; omega)
              (by simp only [List.length_drop]; omega)]

/-- Replaying the record area followed by the 4-byte footer: every record
is saved and folded into the CRC, and the final CRC is checked against the
footer. -/
theorem load_rdb_go_body :
    ∀ (recs : List (Nat × List Nat)) (crc : Nat) (st : Storage)
      (footer : Nat),
      (∀ r ∈ recs, r.1 < 2 ^ 32 ∧ 0 < r.2.length ∧ r.2.length < 2 ^ 64) →
      load_rdb_go (rdb_body_of recs ++ le32 footer) crc st footer
        = if rdb_crc_fold crc recs = footer then .ok (replayRecs st recs)
          else .corrupt := by
  intro recs
  induction recs with
  | nil =>
    intro crc st footer h
    show load_rdb_loop ((rdb_body_of [] ++ le32 footer).length + 1)
      (rdb_body_of [] ++ le32 footer) crc st footer = _
    rw [show rdb_body_of [] ++ le32 footer = le32 footer from by
      rw [show rdb_body_of [] = [] from rfl, List.nil_append]]
    simp only [load_rdb_loop]
    rw [if_pos (by rw [le32_length])]
    rfl
  | cons r rest ih =>
    intro crc st footer h
    have hr := h r (List.mem_cons_self r rest)
    have hbody : rdb_body_of (r :: rest) ++ le32 footer
        = le32 r.1 ++ (le64 r.2.length
            ++ (r.2 ++ (rdb_body_of rest ++ le32 footer))) := by
      show (rdb_record_bytes r.1 r.2 ++ rdb_body_of rest) ++ le32 footer = _
      unfold rdb_record_bytes
      simp [List.append_assoc]
    unfold load_rdb_go
    rw [hbody]
    rw [load_rdb_loop_step _ _ _ _ _ _ _ _ (le32_length r.1)
      (le64_length r.2.length) (dec64_le64 hr.2.2)
      (by have := hr.2.1; omega)]
    rw [dec32_le32 hr.1]
    rw [load_rdb_loop_fuel _ _ ((rdb_body_of rest ++ le32 footer).length + 1)
      _ _ _
      (by simp only [List.length_append, le32_length, le64_length]; omega)
      (by omega)]
    have ihr := ih
      (crc32c (crc32c (crc32c crc (le32 r.1)) (le64 r.2.length)) r.2)
      (storage_save st r.1 r.2) footer
      (fun s hs => h s (List.mem_cons_of_mem r hs))
    unfold load_rdb_go at ihr
    rw [ihr]
    rfl

/-- `load_rdb` on a complete file: the stored footer is decoded from the
last four bytes and compared against the CRC folded over the records. -/
theorem load_rdb_file (recs : List (Nat × List Nat)) (st : Storage)
    (footer : Nat)
    (hwf : ∀ r ∈ recs, r.1 < 2 ^ 32 ∧ 0 < r.2.length ∧ r.2.length < 2 ^ 64)
    (hfoot : footer < 2 ^ 32) :
    load_rdb (some (rdb_body_of recs ++ le32 footer)) st
      = if rdb_crc_fold 0 recs = footer then .ok (replayRecs st recs)
        else .corrupt := by
  simp only [load_rdb]
  rw [if_neg (by simp only [List.length_append, le32_length]; omega)]
  have hlen4 : (rdb_body_of recs).length
      = (rdb_body_of recs ++ le32 footer).length - 4 := by
    simp only [List.length_append, le32_length]
    omega
  rw [List.drop_left' hlen4]
  rw [dec32_le32 hfoot]
  exact load_rdb_go_body recs 0 st footer hwf

/-- `load_rdb` on any present file splits into the footer decode and the
replay loop. -/
theorem load_rdb_some (body : List Nat) (st : Storage) (footer : Nat)
    (hfoot : footer < 2 ^ 32) :
    load_rdb (some (body ++ le32 footer)) st
      = load_rdb_go (body ++ le32 footer) 0 st footer := by
  simp only [load_rdb]
  rw [if_neg (by simp only [List.length_append, le32_length]; omega)]
  have hlen4 : body.length = (body ++ le32 footer).length - 4 := by
    simp only [List.length_append, le32_length]
    omega
  rw [List.drop_left' hlen4]
  rw [dec32_le32 hfoot]

/-- The replay loop processes a prefix of well-formed records and then
continues on whatever follows, with the CRC and the store advanced. -/
theorem load_rdb_go_body_append :
    ∀ (recs : List (Nat × List Nat)) (crc : Nat) (st : Storage)
      (footer : Nat) (tail : List Nat),
      (∀ r ∈ recs, r.1 < 2 ^ 32 ∧ 0 < r.2.length ∧ r.2.length < 2 ^ 64) →
      load_rdb_go (rdb_body_of recs ++ tail) crc st footer
        = load_rdb_go tail (rdb_crc_fold crc recs) (replayRecs st recs)
            footer := by
  intro recs
  induction recs with
  | nil =>
    intro crc st footer tail h
    rw [show rdb_body_of [] ++ tail = tail from by
      rw [show rdb_body_of [] = [] from rfl, List.nil_append]]
    rfl
  | cons r rest ih =>
    intro crc st footer tail h
    have hr := h r (List.mem_cons_self r rest)
    have hbody : rdb_body_of (r :: rest) ++ tail
        = le32 r.1 ++ (le64 r.2.length
            ++ (r.2 ++ (rdb_body_of rest ++ tail))) := by
      show (rdb_record_bytes r.1 r.2 ++ rdb_body_of rest) ++ tail = _
      unfold rdb_record_bytes
      simp [List.append_assoc]
    unfold load_rdb_go
    rw [hbody]
    rw [load_rdb_loop_step _ _ _ _ _ _ _ _ (le32_length r.1)
      (le64_length r.2.length) (dec64_le64 hr.2.2)
      (by have := hr.2.1; omega)]
    rw [dec32_le32 hr.1]
    rw [load_rdb_loop_fuel _ _ ((rdb_body_of rest ++ tail).length + 1)
      _ _ _
      (by simp only [List.length_append, le32_length, le64_length]; omega)
      (by omega)]
    have ihr := ih
      (crc32c (crc32c (crc32c crc (le32 r.1)) (le64 r.2.length)) r.2)
      (storage_save st r.1 r.2) footer tail
      (fun s hs => h s (List.mem_cons_of_mem r hs))
    unfold load_rdb_go at ihr
    rw [ihr]
    rfl

set_option maxHeartbeats 1000000 in
/-- A record declaring size 0 drives the replay loop to the corrupt exit
regardless of what follows and of the footer: `fread(buf, 0, 1)` returns 0
(persistence.c:69), which `load_rdb` treats as a failed read. -/
theorem load_rdb_go_zero_size (id : Nat) (tail : List Nat)
    (crc footer : Nat) (st : Storage) :
    load_rdb_go (rdb_record_bytes id [] ++ tail) crc st footer
      = .corrupt := by
  have hb : rdb_record_bytes id [] ++ tail = le32 id ++ (le64 0 ++ tail) := by
    unfold rdb_record_bytes
    simp [List.append_assoc]
  unfold load_rdb_go
  rw [hb]
  simp only [load_rdb_loop]
  rw [List.drop_left' (le32_length id), List.take_left' (le64_length 0)]
  rw [if_neg (by
    simp only [List.length_append, le32_length, le64_length]
    omega)]
  rw [if_neg (by simp only [List.length_append, le64_length]; omega)]
  rw [if_pos (dec64_le64 (by norm_num))]

/-! ## Interleaved save/remove bookkeeping -/

theorem lookupA_eq_none_iff (A : List (Nat × List Nat)) (k : Nat) :
    lookupA A k = none ↔ ∀ p ∈ A, p.1 ≠ k := by
  unfold lookupA
  rw [Option.map_eq_none', List.find?_eq_none]
  constructor
  · intro h p hp
    simpa using h p hp
  · intro h p hp
    simpa using h p hp

/-- Removing key `k` from an association list removes exactly that key. -/
theorem lookupA_filter (A : List (Nat × List Nat)) (k q : Nat) :
    lookupA (A.filter fun pr => pr.1 ≠ k) q
      = if q = k then none else lookupA A q := by
  induction A with
  | nil =>
    show lookupA [] q = if q = k then none else lookupA [] q
    by_cases hq : q = k
    · rw [if_pos hq]
      rfl
    · rw [if_neg hq]
  | cons a rest ih =>
    rw [List.filter_cons]
    by_cases ha : a.1 = k
    · rw [if_neg (by simp [ha])]
      rw [ih]
      by_cases hq : q = k
      · rw [if_pos hq, if_pos hq]
      · rw [if_neg hq, if_neg hq]
        have haq : a.1 ≠ q := by
          rw [ha]
          exact fun he => hq he.symm
        unfold lookupA
        rw [List.find?_cons_of_neg _ (by simp [haq])]
    · rw [if_pos (by simp [ha])]
      by_cases haq : a.1 = q
      · have hqk : q ≠ k := fun he => ha ((haq.trans he))
        rw [if_neg hqk]
        unfold lookupA
        rw [List.find?_cons_of_pos _ (by simp [haq]),
          List.find?_cons_of_pos _ (by simp [haq])]
      · unfold lookupA
        rw [List.find?_cons_of_neg _ (by simp [haq]),
          List.find?_cons_of_neg _ (by simp [haq])]
        exact ih

/-- Dropping key `k` shortens a duplicate-free association list by one
exactly when the key was bound. -/
theorem length_filter_lookupA (k : Nat) :
    ∀ (A : List (Nat × List Nat)), A.Pairwise (fun a b => a.1 ≠ b.1) →
      (A.filter fun pr => pr.1 ≠ k).length
        = A.length - (if (lookupA A k).isSome then 1 else 0) := by
  intro A
  induction A with
  | nil => intro _; rfl
  | cons a rest ih =>
    intro hpw
    rw [List.pairwise_cons] at hpw
    obtain ⟨ha, hrest⟩ := hpw
    rw [List.filter_cons]
    by_cases hak : a.1 = k
    · rw [if_neg (by simp [hak])]
      have hfeq : (rest.filter fun pr => pr.1 ≠ k) = rest := by
        rw [List.filter_eq_self]
        intro p hp
        simp only [ne_eq, decide_eq_true_eq]
        rw [← hak]
        exact fun he => (ha p hp) he.symm
      rw [hfeq]
      have hsome : lookupA (a :: rest) k = some a.2 := by
        unfold lookupA
        rw [List.find?_cons_of_pos _ (by simp [hak])]
        rfl
      rw [hsome]
      simp
    · rw [if_pos (by simp [hak])]
      have hlk : lookupA (a :: rest) k = lookupA rest k := by
        unfold lookupA
        rw [List.find?_cons_of_neg _ (by simp [hak])]
      rw [List.length_cons, List.length_cons, ih hrest, hlk]
      by_cases hs : (lookupA rest k).isSome = true
      · rw [if_pos hs]
        have hpos : 0 < rest.length := by
          cases rest with
          | nil => simp [lookupA] at hs
          | cons _ _ => simp
        omega
      · rw [if_neg hs]
        omega

/-- Appending a fresh binding: lookups fall through to it. -/
theorem lookupA_append_single (A : List (Nat × List Nat)) (k : Nat)
    (v : List Nat) (q : Nat) :
    lookupA (A ++ [(k, v)]) q =
      match lookupA A q with
      | some w => some w
      | none => if q = k then some v else none := by
  induction A with
  | nil =>
    by_cases hq : q = k
    · simp [lookupA, hq]
    · have hq2 : k ≠ q := fun he => hq he.symm
      simp only [lookupA]
      rw [List.nil_append]
      rw [List.find?_cons_of_neg _ (by simp [hq2])]
      show (none : Option (List Nat)) = if q = k then some v else none
      rw [if_neg hq]
  | cons a rest ih =>
    by_cases ha : a.1 = q
    · rw [show ((a :: rest) ++ [(k, v)]) = a :: (rest ++ [(k, v)]) from rfl]
      rw [show lookupA (a :: (rest ++ [(k, v)])) q = some a.2 from by
        unfold lookupA
        rw [List.find?_cons_of_pos _ (by simp [ha])]
        rfl]
      rw [show lookupA (a :: rest) q = some a.2 from by
        unfold lookupA
        rw [List.find?_cons_of_pos _ (by simp [ha])]
        rfl]
    · rw [show ((a :: rest) ++ [(k, v)]) = a :: (rest ++ [(k, v)]) from rfl]
      rw [show lookupA (a :: (rest ++ [(k, v)])) q
          = lookupA (rest ++ [(k, v)]) q from by
        unfold lookupA
        rw [List.find?_cons_of_neg _ (by simp [ha])]]
      rw [show lookupA (a :: rest) q = lookupA rest q from by
        unfold lookupA
        rw [List.find?_cons_of_neg _ (by simp [ha])]]
      exact ih

theorem pairwise_append_single {A : List (Nat × List Nat)} {k : Nat}
    {v : List Nat} (hpw : A.Pairwise (fun a b => a.1 ≠ b.1))
    (hk : ∀ p ∈ A, p.1 ≠ k) :
    (A ++ [(k, v)]).Pairwise (fun a b => a.1 ≠ b.1) := by
  rw [List.pairwise_append]
  refine ⟨hpw, List.pairwise_singleton _ _, ?_⟩
  intro a ha b hb
  rw [List.mem_singleton] at hb
  subst hb
  exact hk a ha

/-- Running an interleaving of saves (each on a key fresh for the run) and
removes keeps the store well-formed and keeps its `size` and mapping in
lock-step with the `liveAssoc` bookkeeping. -/
theorem execOps_spec :
    ∀ (ops : List Op) (st : Storage) (A : List (Nat × List Nat)),
      WF st →
      (∀ q, model st q = lookupA A q) →
      st.size = A.length →
      A.Pairwise (fun a b => a.1 ≠ b.1) →
      (∀ j, j ∈ saveKeys ops → lookupA A j = none) →
      (saveKeys ops).Nodup →
      WF (execOps st ops) ∧
      (∀ q, model (execOps st ops) q = lookupA (liveAssoc A ops) q) ∧
      (execOps st ops).size = (liveAssoc A ops).length := by
  intro ops
  induction ops with
  | nil =>
    intro st A hw hm hsz hpw hfresh hnd
    exact ⟨hw, hm, hsz⟩
  | cons op rest ih =>
    intro st A hw hm hsz hpw hfresh hnd
    cases op with
    | save k v =>
      have hkmem : k ∈ saveKeys (Op.save k v :: rest) :=
        List.mem_cons_self _ _
      have hkfresh : lookupA A k = none := hfresh k hkmem
      have hndc : (k :: saveKeys rest).Nodup := hnd
      have hknotin : k ∉ saveKeys rest := (List.nodup_cons.mp hndc).1
      have hndk : (saveKeys rest).Nodup := (List.nodup_cons.mp hndc).2
      have hmk : model st k = none := by rw [hm k, hkfresh]
      obtain ⟨hw1, -, hsize1, hmodel1⟩ := storage_save_WF_fresh hw v hmk
      have hfeq : (A.filter fun pr => pr.1 ≠ k) = A := by
        rw [List.filter_eq_self]
        intro p hp
        simp only [ne_eq, decide_eq_true_eq]
        exact (lookupA_eq_none_iff A k).mp hkfresh p hp
      have hexec : execOps st (Op.save k v :: rest)
          = execOps (storage_save st k v) rest := rfl
      have hlive : liveAssoc A (Op.save k v :: rest)
          = liveAssoc ((A.filter fun pr => pr.1 ≠ k) ++ [(k, v)]) rest := rfl
      rw [hexec, hlive, hfeq]
      refine ih (storage_save st k v) (A ++ [(k, v)]) hw1 ?_ ?_ ?_ ?_ hndk
      · intro q
        rw [hmodel1 q, lookupA_append_single]
        by_cases hq : q = k
        · rw [if_pos hq, hq, hkfresh]
          exact (if_pos rfl).symm
        · rw [if_neg hq, hm q]
          cases hlq : lookupA A q with
          | none =>
            show (none : Option (List Nat)) = if q = k then some v else none
            rw [if_neg hq]
          | some w => rfl
      · rw [hsize1, hsz, List.length_append]
        rfl
      · exact pairwise_append_single hpw
          (fun p hp => (lookupA_eq_none_iff A k).mp hkfresh p hp)
      · intro j hj
        have hjfresh := hfresh j (List.mem_cons_of_mem _ hj)
        rw [lookupA_append_single, hjfresh]
        show (if j = k then some v else none) = none
        rw [if_neg (show ¬j = k from fun he => hknotin (by
          rw [← he]
          exact hj))]
    | remove k =>
      obtain ⟨hw1, -, hsize1, hmodel1⟩ := storage_remove_WF hw k
      have hexec : execOps st (Op.remove k :: rest)
          = execOps (storage_remove st k) rest := rfl
      have hlive : liveAssoc A (Op.remove k :: rest)
          = liveAssoc (A.filter fun pr => pr.1 ≠ k) rest := rfl
      rw [hexec, hlive]
      refine ih (storage_remove st k) (A.filter fun pr => pr.1 ≠ k) hw1
        ?_ ?_ (hpw.filter _) ?_ hnd
      · intro q
        rw [hmodel1 q, lookupA_filter]
        by_cases hq : q = k
        · rw [if_pos hq, if_pos hq]
        · rw [if_neg hq, if_neg hq, hm q]
      · rw [hsize1, hsz, length_filter_lookupA k A hpw, hm k]
        by_cases hs : (lookupA A k).isSome = true
        · rw [if_pos hs, if_pos hs]
        · rw [if_neg hs, if_neg hs]
          omega
      · intro j hj
        rw [lookupA_filter]
        by_cases hjk : j = k
        · rw [if_pos hjk]
        · rw [if_neg hjk]
          exact hfresh j hj

/-! ## Shared corollaries for the AOF claims -/

/-- The byte-identical read-back of a written log parses to the very
records that were written. -/
theorem aofParse_file (recs : List (Nat × List Nat))
    (hwf : ∀ r ∈ recs, r.1 < 2 ^ 32 ∧ r.2.length < 2 ^ 32) :
    aofParse (aof_file_of recs) = some recs := by
  have h := aofParse_file_append recs [] hwf
  rw [List.append_nil] at h
  rw [h]
  rw [show aofParse [] = some [] from rfl]
  rw [show (some [] : Option (List (Nat × List Nat))).map (recs ++ ·)
    = some (recs ++ []) from rfl]
  rw [List.append_nil]

/-- A complete log replays cleanly: the loop ends at the record boundary
and every record has been saved. -/
theorem AOF_load_file_ok (recs : List (Nat × List Nat)) (st : Storage)
    (hwf : ∀ r ∈ recs, r.1 < 2 ^ 32 ∧ r.2.length < 2 ^ 32) :
    AOF_load (some (aof_file_of recs)) st = .ok (replayRecs st recs) := by
  rw [show AOF_load (some (aof_file_of recs)) st
    = AOF_load_go (aof_file_of recs) st from rfl]
  rw [AOF_load_go_parse, aofParse_file recs hwf]

set_option maxRecDepth 400000

/-! # The claims -/

/-- C1: for every sequence of `storage_save` operations (replayed from the
initialized store), after the last save of `id` with payload `v`,
`storage_get` with an output buffer of at least `v.length` bytes returns
exactly `v` (hit, last-written bytes copied out). -/
theorem c1_last_save_get {recs : List (Nat × List Nat)} {id sz : Nat}
    {v : List Nat} (hlast : lastWrite recs id = some v)
    (hsz : v.length ≤ sz) :
    storage_get (replayRecs storage_init recs) id sz = some v := by
  obtain ⟨hwfc, hm⟩ := replayRecs_WFC recs storage_init storage_init_WFC
  obtain ⟨⟨hlen, hpow, -, -, -, nd, ch⟩, -, -⟩ := hwfc
  rw [storage_get_model hlen hpow nd ch id sz]
  rw [hm id, hlast]
  exact if_neg (by omega)

theorem c1_last_save_get_witness :
    lastWrite [(0, [3]), (0, [4, 5])] 0 = some [4, 5] ∧
    ([4, 5] : List Nat).length ≤ 2 ∧
    storage_get (replayRecs storage_init [(0, [3]), (0, [4, 5])]) 0 2
      = some [4, 5] :=
  ⟨by decide, by decide, c1_last_save_get (by decide) (by decide)⟩

/-- C2: a log produced by successful `aof_write_record` calls — each record
being `[id:4 LE][size:4 LE][payload][crc32c:4 LE]` with the CRC taken over
the preceding `8 + size` bytes with seed 0 — reads back byte-identically to
the same `(id, payload)` pairs with every CRC verifying, and `AOF_load`
replays exactly those records. -/
theorem c2_record_roundtrip (recs : List (Nat × List Nat))
    (hwf : ∀ r ∈ recs, r.1 < 2 ^ 32 ∧ r.2.length < 2 ^ 32) :
    aofParse (aof_file_of recs) = some recs ∧
    (∀ st, AOF_load (some (aof_file_of recs)) st = .ok (replayRecs st recs)) :=
  ⟨aofParse_file recs hwf, fun st => AOF_load_file_ok recs st hwf⟩

theorem c2_record_roundtrip_witness :
    (∀ r ∈ [((5 : Nat), [1, 2, 3])], r.1 < 2 ^ 32 ∧ r.2.length < 2 ^ 32) ∧
    aofParse (aof_file_of [(5, [1, 2, 3])]) = some [(5, [1, 2, 3])] :=
  ⟨by decide, (c2_record_roundtrip [(5, [1, 2, 3])] (by decide)).1⟩

/-- C3 (amended): a clean EOF exactly at a record boundary ends replay
successfully; a truncated size field, truncated payload, truncated CRC or
CRC mismatch inside a record drives `AOF_load` to the corrupt exit; but a
truncated leading id field (1-3 trailing bytes) is treated as a clean EOF
and replay ends successfully, not fatally as the claim states. -/
theorem c3_eof_and_corruption :
    (∀ recs st, (∀ r ∈ recs, r.1 < 2 ^ 32 ∧ r.2.length < 2 ^ 32) →
      AOF_load (some (aof_file_of recs)) st = .ok (replayRecs st recs)) ∧
    (∀ recs tail st, (∀ r ∈ recs, r.1 < 2 ^ 32 ∧ r.2.length < 2 ^ 32) →
      aofParse tail = none →
      AOF_load (some (aof_file_of recs ++ tail)) st = .corrupt) ∧
    (∀ idb more, idb.length = 4 → more.length < 4 →
      aofParse (idb ++ more) = none) ∧
    (∀ idb szb rest, idb.length = 4 → szb.length = 4 →
      rest.length < dec32 szb → aofParse (idb ++ (szb ++ rest)) = none) ∧
    (∀ idb szb payload rest, idb.length = 4 → szb.length = 4 →
      dec32 szb = payload.length → rest.length < 4 →
      aofParse (idb ++ (szb ++ (payload ++ rest))) = none) ∧
    (∀ idb szb payload crcb tail, idb.length = 4 → szb.length = 4 →
      dec32 szb = payload.length → crcb.length = 4 →
      dec32 crcb ≠ crc32c (crc32c (crc32c 0 idb) szb) payload →
      aofParse (idb ++ (szb ++ (payload ++ (crcb ++ tail)))) = none) ∧
    (∀ bytes st, bytes.length < 4 → AOF_load (some bytes) st = .ok st) := by
  refine ⟨?_, ?_, ?_, ?_, ?_, ?_, ?_⟩
  · intro recs st hwf
    exact AOF_load_file_ok recs st hwf
  · intro recs tail st hwf hbad
    rw [show AOF_load (some (aof_file_of recs ++ tail)) st
      = AOF_load_go (aof_file_of recs ++ tail) st from rfl]
    exact AOF_load_append_corrupt st hwf hbad
  · intro idb more h1 hm
    exact aofParse_short_size h1 hm
  · intro idb szb rest h1 h2 hr
    exact aofParse_short_payload h1 h2 hr
  · intro idb szb payload rest h1 h2 h3 hr
    exact aofParse_short_crc h1 h2 h3 hr
  · intro idb szb payload crcb tail h1 h2 h3 h4 h5
    exact aofParse_crc_mismatch h1 h2 h3 h4 h5
  · intro bytes st h
    rw [show AOF_load (some bytes) st = AOF_load_go bytes st from rfl]
    unfold AOF_load_go
    simp only [AOF_load_loop]
    rw [if_pos h]

theorem c3_eof_and_corruption_witness :
    ([0, 0, 0, 0] : List Nat).length = 4 ∧ ([1] : List Nat).length < 4 ∧
    aofParse ([0, 0, 0, 0] ++ [1]) = none :=
  ⟨rfl, by decide, c3_eof_and_corruption.2.2.1 [0, 0, 0, 0] [1] rfl (by decide)⟩

/-- A log holding a single byte is a truncated leading id field; replay
ends successfully instead of aborting, refuting the claim's fatal-corruption
requirement for this case. -/
theorem c3_truncated_id_clean_eof :
    AOF_load (some [7]) storage_init = .ok storage_init := by decide

/-- C4: in sync-always mode, a failed write makes `AOF_append` return -1
and the caller leaves the store untouched; but the `fsync` return value is
never inspected, so a failed fsync still returns 0 and the caller updates
the store — the write-failure half of the claim holds, the fsync half does
not. -/
theorem c4_fsync_result_ignored :
    AOF_mode_always 0 = true ∧
    AOF_append_always ⟨true, false⟩ = 0 ∧
    create_user_fast_persist storage_init 7 [1] ⟨true, false⟩
      = storage_save storage_init 7 [1] ∧
    AOF_append_always ⟨false, false⟩ = -1 ∧
    create_user_fast_persist storage_init 7 [1] ⟨false, false⟩
      = storage_init := by
  refine ⟨rfl, rfl, by decide, rfl, by decide⟩

/-- C5: after any `storage_save` completing on any store reachable by a
sequence of inserts, the load factor is at most 0.7
(`10 * size ≤ 7 * capacity`), the capacity is a power of two at least the
initial 16, and growth only ever doubles the capacity. -/
theorem c5_insert_load_factor (recs : List (Nat × List Nat)) (id : Nat)
    (v : List Nat) :
    LoadOK (storage_save (replayRecs storage_init recs) id v) ∧
    CapPow2 (storage_save (replayRecs storage_init recs) id v) ∧
    CapGE (storage_save (replayRecs storage_init recs) id v) ∧
    ((storage_save (replayRecs storage_init recs) id v).capacity
        = (replayRecs storage_init recs).capacity ∨
      (storage_save (replayRecs storage_init recs) id v).capacity
        = 2 * (replayRecs storage_init recs).capacity) := by
  obtain ⟨hwfc, -⟩ := replayRecs_WFC recs storage_init storage_init_WFC
  obtain ⟨⟨⟨-, hpow, hge, -, hload, -, -⟩, -, -⟩, hcap, -, -⟩ :=
    storage_save_WFC hwfc id v
  exact ⟨hload, hpow, hge, hcap⟩

/-- C6: for every interleaving of saves and removes in which the saved
keys are pairwise distinct, starting from the initialized store, `size`
equals the number of live keys (and the represented mapping is exactly the
live association list). -/
theorem c6_size_counts_live (ops : List Op) (hnd : (saveKeys ops).Nodup) :
    (execOps storage_init ops).size = (liveAssoc [] ops).length ∧
    (∀ q, model (execOps storage_init ops) q
      = lookupA (liveAssoc [] ops) q) := by
  have h := execOps_spec ops storage_init [] storage_init_WFC.1
    (fun q => rfl) rfl List.Pairwise.nil (fun j _ => rfl) hnd
  exact ⟨h.2.2, h.2.1⟩

theorem c6_size_counts_live_witness :
    (saveKeys [Op.save 0 [1], Op.save 1 [2], Op.remove 0]).Nodup ∧
    (execOps storage_init [Op.save 0 [1], Op.save 1 [2], Op.remove 0]).size
      = (liveAssoc [] [Op.save 0 [1], Op.save 1 [2], Op.remove 0]).length :=
  ⟨by decide,
    (c6_size_counts_live [Op.save 0 [1], Op.save 1 [2], Op.remove 0]
      (by decide)).1⟩

/-- C7 (amended): `load_rdb` on a missing file returns cleanly; on a
present file whose records all declare a nonzero size, every record's
bytes are folded into a running CRC32C with seed 0 while the records are
applied through `storage_save`, and the load succeeds exactly when the
computed CRC equals the 4-byte footer, aborting otherwise; a record
declaring size 0, however, aborts the load regardless of the footer
(`fread(buf, 0, 1)` returns 0, which `load_rdb` treats as a failed
read). -/
theorem c7_rdb_load :
    (∀ st, load_rdb none st = .ok st) ∧
    (∀ recs st footer,
      (∀ r ∈ recs, r.1 < 2 ^ 32 ∧ 0 < r.2.length ∧ r.2.length < 2 ^ 64) →
      footer < 2 ^ 32 →
      load_rdb (some (rdb_body_of recs ++ le32 footer)) st
        = if rdb_crc_fold 0 recs = footer then .ok (replayRecs st recs)
          else .corrupt) ∧
    (∀ recs id tail st footer,
      (∀ r ∈ recs, r.1 < 2 ^ 32 ∧ 0 < r.2.length ∧ r.2.length < 2 ^ 64) →
      footer < 2 ^ 32 →
      load_rdb (some ((rdb_body_of recs ++ (rdb_record_bytes id [] ++ tail))
          ++ le32 footer)) st = .corrupt) := by
  refine ⟨fun _ => rfl,
    fun recs st footer hwf hfoot => load_rdb_file recs st footer hwf hfoot,
    ?_⟩
  intro recs id tail st footer hwf hfoot
  rw [load_rdb_some (rdb_body_of recs ++ (rdb_record_bytes id [] ++ tail))
    st footer hfoot]
  rw [show (rdb_body_of recs ++ (rdb_record_bytes id [] ++ tail))
      ++ le32 footer
    = rdb_body_of recs ++ ((rdb_record_bytes id [] ++ tail) ++ le32 footer)
    from by simp [List.append_assoc]]
  rw [load_rdb_go_body_append recs 0 st footer
    ((rdb_record_bytes id [] ++ tail) ++ le32 footer) hwf]
  rw [show (rdb_record_bytes id [] ++ tail) ++ le32 footer
    = rdb_record_bytes id [] ++ (tail ++ le32 footer)
    from by simp [List.append_assoc]]
  exact load_rdb_go_zero_size id (tail ++ le32 footer) _ _ _

theorem c7_rdb_load_witness :
    (∀ r ∈ [((1 : Nat), [2])], r.1 < 2 ^ 32 ∧ 0 < r.2.length ∧
      r.2.length < 2 ^ 64) ∧
    rdb_crc_fold 0 [((1 : Nat), [2])] < 2 ^ 32 ∧
    load_rdb (some (rdb_body_of [((1 : Nat), [2])]
        ++ le32 (rdb_crc_fold 0 [((1 : Nat), [2])]))) storage_init
      = .ok (replayRecs storage_init [((1 : Nat), [2])]) := by
  refine ⟨by decide, by decide, ?_⟩
  have h := c7_rdb_load.2.1 [((1 : Nat), [2])] storage_init
    (rdb_crc_fold 0 [((1 : Nat), [2])]) (by decide) (by decide)
  rw [if_pos rfl] at h
  exact h

/-- An RDB file holding a single record of declared size 0 and a footer
that equals the CRC folded over that record's bytes: the claim requires
the record to be folded and applied and the load to abort only when the
computed CRC differs from the footer, but `load_rdb` aborts here even
though the footer matches. -/
theorem c7_zero_size_record_aborts :
    load_rdb (some (rdb_body_of [(1, [])]
      ++ le32 (rdb_crc_fold 0 [(1, [])]))) storage_init = .corrupt := by
  decide

/-- C8 (amended): on a tombstone-free well-formed store — in particular
any store `AOF_load` itself produces when booting from `storage_init` —
replaying the same log twice yields the same key-to-value mapping as
replaying it once.  (On stores with tombstones the claim fails; see the
counterexample.) -/
theorem c8_replay_idempotent {st s1 s2 : Storage} (hw : WFC st)
    {bytes : List Nat}
    (h1 : AOF_load (some bytes) st = .ok s1)
    (h2 : AOF_load (some bytes) s1 = .ok s2) :
    ∀ q, model s2 q = model s1 q := by
  have e1 := AOF_load_go_parse bytes st
  have e2 := AOF_load_go_parse bytes s1
  rw [show AOF_load (some bytes) st = AOF_load_go bytes st from rfl, e1] at h1
  rw [show AOF_load (some bytes) s1 = AOF_load_go bytes s1 from rfl, e2] at h2
  cases hp : aofParse bytes with
  | none =>
    rw [hp] at h1
    exact LoadRes.noConfusion h1
  | some recs =>
    rw [hp] at h1 h2
    cases h1
    cases h2
    obtain ⟨hw1, hm1⟩ := replayRecs_WFC recs st hw
    obtain ⟨-, hm2⟩ := replayRecs_WFC recs (replayRecs st recs) hw1
    intro q
    rw [hm2 q]
    cases hlw : lastWrite recs q with
    | some v => rw [hm1 q, hlw]
    | none => rfl

theorem c8_replay_idempotent_witness :
    WFC storage_init ∧
    AOF_load (some (aof_file_of [(0, [1])])) storage_init
      = .ok (storage_save storage_init 0 [1]) ∧
    AOF_load (some (aof_file_of [(0, [1])])) (storage_save storage_init 0 [1])
      = .ok (storage_save (storage_save storage_init 0 [1]) 0 [1]) ∧
    model (storage_save (storage_save storage_init 0 [1]) 0 [1]) 0
      = model (storage_save storage_init 0 [1]) 0 :=
  ⟨by decide, by decide, by decide,
    @c8_replay_idempotent storage_init (storage_save storage_init 0 [1])
      (storage_save (storage_save storage_init 0 [1]) 0 [1]) (by decide)
      (aof_file_of [(0, [1])]) (by decide) (by decide) 0⟩

/-- Replaying `c8_log` into the tombstoned (API-reachable) store `c8_st0`
once leaves key 1 at its stale value `[7]`; replaying the same log a second
time flips it to `[9]`: the two resulting stores represent different
mappings, refuting idempotence for arbitrary initial stores. -/
theorem c8_double_replay_differs :
    AOF_load (some c8_log) c8_st0 = .ok c8_once ∧
    AOF_load (some c8_log) c8_once = .ok c8_twice ∧
    storage_get c8_once 1 8 = some [7] ∧
    storage_get c8_twice 1 8 = some [9] :=
  ⟨by decide, by decide, by decide, by decide⟩

/-- C9: on a well-formed store holding `id` with a value of `n` bytes, a
`storage_get` with an output buffer smaller than `n` returns the miss
result without copying anything — indistinguishable from an absent key. -/
theorem c9_small_buffer_miss {st : Storage} (hw : WF st) {id sz : Nat}
    {v : List Nat} (hm : model st id = some v) (hsz : sz < v.length) :
    storage_get st id sz = none := by
  obtain ⟨hlen, hpow, -, -, -, nd, ch⟩ := hw
  rw [storage_get_model hlen hpow nd ch id sz, hm]
  exact if_pos hsz

theorem c9_small_buffer_miss_witness :
    WF (storage_save storage_init 0 [1, 2]) ∧
    model (storage_save storage_init 0 [1, 2]) 0 = some [1, 2] ∧
    storage_get (storage_save storage_init 0 [1, 2]) 0 1 = none :=
  ⟨by decide, by decide,
    @c9_small_buffer_miss (storage_save storage_init 0 [1, 2]) (by decide)
      0 1 [1, 2] (by decide) (by decide)⟩

/-- C10: `storage_get` and `storage_remove` probe at most `capacity` slots
(their loops are bounded by `capacity`, embedded as the fuel): on any
store holding no slot for the key — even a table with no empty slot at
all — the get reports a miss and the remove leaves the store unchanged. -/
theorem c10_full_table_probe_miss {st : Storage} {k : Nat}
    (habs : ∀ i, i < st.slots.length → ¬(occAt st i ∧ (slotAt st i).key = k))
    (sz : Nat) :
    storage_get st k sz = none ∧ storage_remove st k = st :=
  ⟨storage_get_none_of_absent habs sz, storage_remove_of_absent habs⟩

theorem c10_full_table_probe_miss_witness :
    (∀ i, i < c10_full.slots.length →
      ¬(occAt c10_full i ∧ (slotAt c10_full i).key = 5)) ∧
    storage_get c10_full 5 4 = none ∧ storage_remove c10_full 5 = c10_full :=
  ⟨by decide,
    (c10_full_table_probe_miss (by decide) 4).1,
    (c10_full_table_probe_miss (by decide) 4).2⟩

end RAMForge
